import Mathlib

/-!
Verification of the investment-analyst repository core (rate limiting,
staleness cache, multi-source merge, ETF holdings persistence, backfill
deduplication, and the alignment scorer).

Numbers that the Python code handles as floats are modelled as exact
rationals (`ℚ`); wall-clock times are rationals measured in seconds, and
calendar days are obtained by flooring `now / 86400`.  Python string
operations (`in`, `.lower()`, `.upper()`) are modelled over `String` via
the character list.  `Option` models Python `None`; Python truthiness of
a string (empty = falsy) and of a number (zero = falsy) is modelled by
explicit predicates.
-/

namespace InvestmentAnalyst

/-- Substring test on character lists: `subList h n` is true when `n`
occurs contiguously inside `h` (Python `n in h`). -/
def subList : List Char → List Char → Bool
  | [], n => n.isEmpty
  | c :: t, n => n.isPrefixOf (c :: t) || subList t n

/-- Python `needle in hay` for strings. -/
def strContains (hay needle : String) : Bool :=
  subList hay.data needle.data

/-- Python `s.lower()` (ASCII inputs). -/
def lowerStr (s : String) : String :=
  String.mk (s.data.map Char.toLower)

/-- Python `s.upper()` (ASCII inputs). -/
def upperStr (s : String) : String :=
  String.mk (s.data.map Char.toUpper)

/-- Python `s.strip()` (whitespace strip on both ends), written over the
character list so that it evaluates inside the kernel. -/
def trimStr (s : String) : String :=
  String.mk (((s.data.dropWhile Char.isWhitespace).reverse.dropWhile
    Char.isWhitespace).reverse)

/-- Python truthiness of an optional string: `None` and the empty string
are falsy. -/
def strPresent : Option String → Bool
  | none => false
  | some s => !(s == "")

/-- Python truthiness of an optional number: `None` and `0` are falsy. -/
def numPresent : Option ℚ → Bool
  | none => false
  | some q => !(q == 0)

/-- Python `round(x, 2)`: rounding to two decimal places (ties modelled
as round-half-up; the Python tie-to-even behaviour differs only on exact
half-cent values, which none of the verified properties depend on). -/
def roundTo2 (x : ℚ) : ℚ := ((⌊100 * x + 1 / 2⌋ : ℤ) : ℚ) / 100

theorem roundTo2_mono {x y : ℚ} (h : x ≤ y) : roundTo2 x ≤ roundTo2 y := by
  unfold roundTo2
  have : (⌊100 * x + 1 / 2⌋ : ℤ) ≤ ⌊100 * y + 1 / 2⌋ := by
    apply Int.floor_le_floor
    nlinarith
  have h2 : ((⌊100 * x + 1 / 2⌋ : ℤ) : ℚ) ≤ ((⌊100 * y + 1 / 2⌋ : ℤ) : ℚ) := by
    exact_mod_cast this
  linarith

theorem roundTo2_intCast (n : ℤ) : roundTo2 ((n : ℚ)) = n := by
  unfold roundTo2
  have hf : (⌊(100 : ℚ) * n + 1 / 2⌋ : ℤ) = 100 * n := by
    rw [Int.floor_eq_iff]
    constructor
    · push_cast; linarith
    · push_cast; linarith
  rw [hf]
  push_cast
  ring

theorem roundTo2_nonneg {x : ℚ} (h : 0 ≤ x) : 0 ≤ roundTo2 x := by
  have h0 := roundTo2_intCast 0
  norm_num at h0
  have hm := roundTo2_mono h
  linarith

theorem roundTo2_le_of_le_int {x : ℚ} (n : ℤ) (h : x ≤ (n : ℚ)) : roundTo2 x ≤ (n : ℚ) := by
  have h0 := roundTo2_intCast n
  have hm := roundTo2_mono h
  linarith

/-! ## Dividend-yield normalization (`equity_analyst_autonomous._normalize_dividend_yield`)

The Python function takes an arbitrary value; `None` and values that fail
`float()` conversion map to `None`.  We model the already-converted
numeric value as `Option ℚ` (`none` covers both the `None` input and a
failed conversion). -/

/-- Model of `_normalize_dividend_yield`: values strictly between 0 and
0.1 are treated as decimal fractions and scaled by 100; everything else
is returned unchanged. -/
def normalize_dividend_yield : Option ℚ → Option ℚ
  | none => none
  | some v => if 0 < v ∧ v < 1 / 10 then some (v * 100) else some v

/-- C8 counterexample: the input `-0.05` is less than `0.1`, yet the code
stores it unchanged (`-0.05`), not multiplied by 100 (`-5`), because the
scaling branch requires `0 < v` as well. -/
theorem C8_counterexample :
    (-1 / 20 : ℚ) < 1 / 10 ∧
      normalize_dividend_yield (some (-1 / 20)) = some (-1 / 20) ∧
      normalize_dividend_yield (some (-1 / 20)) ≠ some ((-1 / 20) * 100) := by
  refine ⟨by norm_num, ?_, ?_⟩
  · simp only [normalize_dividend_yield]
    norm_num
  · simp only [normalize_dividend_yield]
    norm_num

/-- C8 amended: inputs strictly between 0 and 0.1 are interpreted as
decimal fractions and multiplied by 100 before storage; every other
numeric input (including 0, negative values, and values of at least 0.1)
is stored unchanged; a missing value stays missing. -/
theorem C8_amended_normalization (v : ℚ) :
    (0 < v → v < 1 / 10 → normalize_dividend_yield (some v) = some (v * 100)) ∧
      (¬(0 < v ∧ v < 1 / 10) → normalize_dividend_yield (some v) = some v) ∧
      normalize_dividend_yield none = none := by
  refine ⟨fun h1 h2 => ?_, fun h => ?_, rfl⟩
  · simp only [normalize_dividend_yield]
    rw [if_pos ⟨h1, h2⟩]
  · simp only [normalize_dividend_yield]
    rw [if_neg h]

/-- C8 amended, witness: `0.025` is stored as `2.5` and `2.5` is stored
as `2.5`. -/
theorem C8_amended_normalization_witness :
    normalize_dividend_yield (some (1 / 40)) = some ((1 / 40) * 100) ∧
      normalize_dividend_yield (some (5 / 2)) = some (5 / 2) :=
  ⟨(C8_amended_normalization (1 / 40)).1 (by norm_num) (by norm_num),
    (C8_amended_normalization (5 / 2)).2.1 (by norm_num)⟩

/-! ## Staleness-aware cache read (`AutonomousEquityAnalyst._load_security_from_db`)

A stored row of the `securities` table.  The `last_updated` column is a
string in the database; here it is modelled as the parsed timestamp in
seconds (`none` covers NULL and unparseable strings, both of which make
the Python code return `None` before the staleness check). -/

structure DBRow where
  symbol : String
  name : Option String
  assetType : Option String
  marketCap : Option ℚ
  sector : Option String
  industry : Option String
  description : Option String
  exchange : Option String
  currency : Option String
  currentPrice : Option ℚ
  pe : Option ℚ
  dividendYield : Option ℚ
  yearPerformance : Option ℚ
  week52High : Option ℚ
  week52Low : Option ℚ
  beta : Option ℚ
  volume : Option ℚ
  avgVolume : Option ℚ
  expense : Option ℚ
  lastUpdated : Option ℚ
  deriving DecidableEq

/-- The freshness window: `STALENESS_DAYS = 7`, in seconds. -/
def stalenessSeconds : ℚ := 7 * 86400

/-- The dictionary `_load_security_from_db` builds from a fresh row
(defaults: name falls back to the symbol, currency to USD, description
to the empty string). -/
structure CachedSecurity where
  symbol : String
  name : String
  assetType : Option String
  marketCap : Option ℚ
  sector : Option String
  industry : Option String
  description : String
  exchange : Option String
  currency : String
  currentPrice : Option ℚ
  pe : Option ℚ
  dividendYield : Option ℚ
  yearPerformance : Option ℚ
  week52High : Option ℚ
  week52Low : Option ℚ
  beta : Option ℚ
  volume : Option ℚ
  avgVolume : Option ℚ
  expense : Option ℚ
  deriving DecidableEq

/-- Record constructed from a row that passed both cache checks. -/
def cachedOfRow (r : DBRow) : CachedSecurity :=
  { symbol := r.symbol
    name := r.name.getD r.symbol
    assetType := r.assetType
    marketCap := r.marketCap
    sector := r.sector
    industry := r.industry
    description := r.description.getD ""
    exchange := r.exchange
    currency := r.currency.getD "USD"
    currentPrice := r.currentPrice
    pe := r.pe
    dividendYield := r.dividendYield
    yearPerformance := r.yearPerformance
    week52High := r.week52High
    week52Low := r.week52Low
    beta := r.beta
    volume := r.volume
    avgVolume := r.avgVolume
    expense := r.expense }

/-- Model of `_load_security_from_db`, applied to the row found for the
ticker (`none` when the SELECT found no row) and the current time.
Returns `none` when the row is missing, its timestamp is missing, the
timestamp is more than 7 days old, or both `current_price` and
`year_performance` are NULL. -/
def load_security_from_db (row : Option DBRow) (now : ℚ) : Option CachedSecurity :=
  match row with
  | none => none
  | some r =>
    match r.lastUpdated with
    | none => none
    | some lu =>
      if stalenessSeconds < now - lu then none
      else if r.currentPrice = none ∧ r.yearPerformance = none then none
      else some (cachedOfRow r)

/-- C3: the cache read returns absent exactly on staleness (timestamp
more than 7 days before `now`), and otherwise returns the stored record
provided at least one of current price or year performance is set.  The
staleness branch fires for every row with a stale timestamp, whatever
the other fields hold and whichever provider wrote them, so the
freshness decision is a function of the stored timestamp and the
current time only. -/
theorem C3_cache_staleness (r : DBRow) (now lu : ℚ)
    (hlu : r.lastUpdated = some lu) :
    (stalenessSeconds < now - lu → load_security_from_db (some r) now = none) ∧
      (now - lu ≤ stalenessSeconds →
        (r.currentPrice ≠ none ∨ r.yearPerformance ≠ none) →
        load_security_from_db (some r) now = some (cachedOfRow r)) := by
  constructor
  · intro hstale
    simp only [load_security_from_db, hlu]
    rw [if_pos hstale]
  · intro hfresh hpop
    simp only [load_security_from_db, hlu]
    rw [if_neg (by linarith), if_neg (by tauto)]

/-- C3 witness: a record updated 3 days ago with a current price is
returned; the same record read 8 days after its update is absent. -/
theorem C3_cache_staleness_witness :
    load_security_from_db
        (some { symbol := "NVDA", name := some "NVIDIA", assetType := some "EQUITY",
                marketCap := none, sector := some "Technology", industry := none,
                description := none, exchange := none, currency := none,
                currentPrice := some 100, pe := none, dividendYield := none,
                yearPerformance := none, week52High := none, week52Low := none,
                beta := none, volume := none, avgVolume := none, expense := none,
                lastUpdated := some 0 }) (3 * 86400) ≠ none ∧
      load_security_from_db
        (some { symbol := "NVDA", name := some "NVIDIA", assetType := some "EQUITY",
                marketCap := none, sector := some "Technology", industry := none,
                description := none, exchange := none, currency := none,
                currentPrice := some 100, pe := none, dividendYield := none,
                yearPerformance := none, week52High := none, week52Low := none,
                beta := none, volume := none, avgVolume := none, expense := none,
                lastUpdated := some 0 }) (8 * 86400) = none := by
  constructor
  · rw [(C3_cache_staleness _ (3 * 86400) 0 rfl).2
      (by unfold stalenessSeconds; norm_num) (by left; simp)]
    simp
  · exact (C3_cache_staleness _ (8 * 86400) 0 rfl).1 (by unfold stalenessSeconds; norm_num)

/-! ## Secondary-provider enrichment merges (`portrec/equity_analyst.py`)

`_enrich_with_massive` and `_enrich_with_alpha_vantage` mutate a security
dictionary in place.  The dictionary fields touched by the merges are
modelled below; Python truthiness (`not security.get(f)`) is `strPresent`
/ `numPresent` being false. -/

@[ext]
structure PSec where
  symbol : Option String
  sector : Option String
  industry : Option String
  gicsSector : Option String
  gicsIndustry : Option String
  sicCode : Option String
  sicDescription : Option String
  description : Option String
  dividendYield : Option ℚ
  deriving DecidableEq

/-- Payload of `massive_client.get_ticker_details` (fields used by the merge). -/
structure MassiveDetails where
  sicCode : Option String
  sicDescription : Option String
  description : Option String
  deriving DecidableEq

/-- Payload of `alpha_vantage.get_company_overview` (fields used by the
merge).  `DividendYield` is a string in the API response; the outer
`Option` is the `is not None` test and the inner `Option` is the result
of the `float()` conversion (`none` = conversion raised). -/
structure AVOverview where
  sector : Option String
  industry : Option String
  description : Option String
  dividendYield : Option (Option ℚ)
  deriving DecidableEq

/-- Model of `MultiSourceEquityAnalyst._enrich_with_massive`.  `details`
is `none` when the client is absent, raised, or returned nothing. -/
def enrich_with_massive (s : PSec) (details : Option MassiveDetails) : PSec :=
  if strPresent s.symbol = true then
    match details with
    | none => s
    | some d =>
      let s1 := if !(strPresent s.sicCode) && strPresent d.sicCode then
          { s with sicCode := d.sicCode } else s
      let s2 := if !(strPresent s1.sicDescription) && strPresent d.sicDescription then
          (let s2a := { s1 with sicDescription := d.sicDescription }
           if !(strPresent s2a.sector) then { s2a with sector := d.sicDescription } else s2a)
        else s1
      if !(strPresent s2.description) && strPresent d.description then
        { s2 with description := d.description } else s2
  else s

/-- Model of `MultiSourceEquityAnalyst._enrich_with_alpha_vantage`.
`overview` is `none` when the client is absent, raised, or returned
nothing.  Note that `sector` and `industry` are overwritten whenever the
corresponding GICS field is empty, regardless of their own contents. -/
def enrich_with_alpha_vantage (s : PSec) (overview : Option AVOverview) : PSec :=
  if strPresent s.symbol = true then
    match overview with
    | none => s
    | some o =>
      let s1 := if !(strPresent s.gicsSector) && strPresent o.sector then
          { s with gicsSector := o.sector, sector := o.sector } else s
      let s2 := if !(strPresent s1.gicsIndustry) && strPresent o.industry then
          { s1 with gicsIndustry := o.industry, industry := o.industry } else s1
      let s3 := if !(strPresent s2.description) && strPresent o.description then
          { s2 with description := o.description } else s2
      match o.dividendYield with
      | none => s3
      | some parsed =>
        if numPresent s3.dividendYield then s3
        else
          match parsed with
          | none => s3
          | some dy =>
            { s3 with dividendYield := some (if 0 < dy ∧ dy < 1 / 10 then dy * 100 else dy) }
  else s

/-- Fill-only-null update of a single string-valued field. -/
def fillStr (old new : Option String) : Option String :=
  if !(strPresent old) && strPresent new then new else old

/-- The AV merge updates `sector`/`industry` under the guard of the
corresponding GICS field, not their own. -/
def linkFill (guardField target new : Option String) : Option String :=
  if !(strPresent guardField) && strPresent new then new else target

/-- The massive merge fills `sector` from `sic_description` only when
the `sic_description` fill fired and `sector` itself is empty. -/
def massiveSectorFill (sicDesc target new : Option String) : Option String :=
  if (!(strPresent sicDesc) && strPresent new) && !(strPresent target) then new else target

/-- Dividend-yield fill of the AV merge: fires only when the stored value
is falsy and the payload field is present and parses. -/
def avFillDY (old : Option ℚ) (payload : Option (Option ℚ)) : Option ℚ :=
  match payload with
  | some (some dy) =>
    if numPresent old then old else some (if 0 < dy ∧ dy < 1 / 10 then dy * 100 else dy)
  | _ => old

theorem fillStr_self (old new : Option String) :
    fillStr (fillStr old new) new = fillStr old new := by
  unfold fillStr
  split_ifs <;> simp_all

theorem fillStr_of_present (old new : Option String) (h : strPresent old = true) :
    fillStr old new = old := by
  unfold fillStr
  rw [if_neg]
  simp [h]

theorem linkFill_of_present (g t new : Option String) (h : strPresent g = true) :
    linkFill g t new = t := by
  unfold linkFill
  rw [if_neg]
  simp [h]

theorem linkFill_self (g t new : Option String) :
    linkFill (fillStr g new) (linkFill g t new) new = linkFill g t new := by
  unfold linkFill fillStr
  split_ifs <;> simp_all

theorem massiveSectorFill_of_present (sd t new : Option String)
    (h : strPresent t = true) : massiveSectorFill sd t new = t := by
  unfold massiveSectorFill
  rw [if_neg]
  simp [h]

theorem massiveSectorFill_self (sd t new : Option String) :
    massiveSectorFill (fillStr sd new) (massiveSectorFill sd t new) new
      = massiveSectorFill sd t new := by
  unfold massiveSectorFill fillStr
  split_ifs <;> simp_all

theorem avFillDY_of_present (old : Option ℚ) (p : Option (Option ℚ))
    (h : numPresent old = true) : avFillDY old p = old := by
  rcases p with _ | p2
  · rfl
  · rcases p2 with _ | dy
    · rfl
    · simp only [avFillDY]
      rw [if_pos h]

theorem avFillDY_self (old : Option ℚ) (p : Option (Option ℚ)) :
    avFillDY (avFillDY old p) p = avFillDY old p := by
  rcases p with _ | p2
  · rfl
  · rcases p2 with _ | dy
    · rfl
    · simp only [avFillDY]
      by_cases h : numPresent old = true
      · rw [if_pos h, if_pos h]
      · rw [if_neg h]
        split_ifs <;> rfl

/-- Flat characterization of the massive merge: the sequential updates do
not interfere (no step reads a field an earlier step wrote, except the
sector fallback, whose guard fields are untouched by the first step), so
each output field is an independent conditional. -/
theorem enrich_with_massive_some (s : PSec) (dd : MassiveDetails)
    (hsym : strPresent s.symbol = true) :
    enrich_with_massive s (some dd) =
      { s with
        sicCode := fillStr s.sicCode dd.sicCode
        sicDescription := fillStr s.sicDescription dd.sicDescription
        sector := massiveSectorFill s.sicDescription s.sector dd.sicDescription
        description := fillStr s.description dd.description } := by
  unfold enrich_with_massive fillStr massiveSectorFill
  rw [if_pos hsym]
  dsimp only
  split_ifs <;> first | rfl | simp_all

/-- Flat characterization of the Alpha Vantage merge (same reasoning:
every guard reads only fields no earlier step writes). -/
theorem enrich_with_alpha_vantage_some (s : PSec) (oo : AVOverview)
    (hsym : strPresent s.symbol = true) :
    enrich_with_alpha_vantage s (some oo) =
      { s with
        gicsSector := fillStr s.gicsSector oo.sector
        sector := linkFill s.gicsSector s.sector oo.sector
        gicsIndustry := fillStr s.gicsIndustry oo.industry
        industry := linkFill s.gicsIndustry s.industry oo.industry
        description := fillStr s.description oo.description
        dividendYield := avFillDY s.dividendYield oo.dividendYield } := by
  unfold enrich_with_alpha_vantage fillStr linkFill avFillDY
  rw [if_pos hsym]
  dsimp only
  cases oo.dividendYield with
  | none => split_ifs <;> rfl
  | some parsed =>
    cases parsed with
    | none => split_ifs <;> rfl
    | some dy => split_ifs <;> rfl

/-- C4 counterexample: a record whose `sector` is non-empty (filled from
another source, while `gics_sector` is empty — exactly the shape of every
cache-loaded record, which carries no GICS keys) has its `sector`
overwritten by the Alpha Vantage payload, violating per-field
fill-only-null. -/
theorem C4_counterexample :
    strPresent (PSec.sector
      { symbol := some "XLU", sector := some "Utilities", industry := some "Utilities",
        gicsSector := none, gicsIndustry := none, sicCode := none,
        sicDescription := none, description := some "Utilities fund",
        dividendYield := some 3 }) = true ∧
    (enrich_with_alpha_vantage
      { symbol := some "XLU", sector := some "Utilities", industry := some "Utilities",
        gicsSector := none, gicsIndustry := none, sicCode := none,
        sicDescription := none, description := some "Utilities fund",
        dividendYield := some 3 }
      (some { sector := some "Energy", industry := some "Oil", description := some "d",
              dividendYield := none })).sector = some "Energy" ∧
    (some "Energy" : Option String) ≠ some "Utilities" := by
  refine ⟨rfl, ?_, by simp⟩
  rfl

/-- C4 amended: the fill-only-null policy holds field-by-field for every
field of both merges except `sector` and `industry` in the Alpha Vantage
merge, whose guards test emptiness of `gics_sector` / `gics_industry`
instead of their own: those two are preserved only when the
corresponding GICS field is non-empty (in particular a non-empty
`sector`/`industry` can be overwritten while `gics_sector` /
`gics_industry` is empty).  All fields a merge never assigns are
unchanged. -/
theorem C4_amended_fill_only_null (s : PSec) (d : Option MassiveDetails)
    (o : Option AVOverview) :
    ((strPresent s.sicCode = true → (enrich_with_massive s d).sicCode = s.sicCode) ∧
      (strPresent s.sicDescription = true →
        (enrich_with_massive s d).sicDescription = s.sicDescription) ∧
      (strPresent s.sector = true → (enrich_with_massive s d).sector = s.sector) ∧
      (strPresent s.description = true →
        (enrich_with_massive s d).description = s.description) ∧
      (enrich_with_massive s d).symbol = s.symbol ∧
      (enrich_with_massive s d).gicsSector = s.gicsSector ∧
      (enrich_with_massive s d).gicsIndustry = s.gicsIndustry ∧
      (enrich_with_massive s d).industry = s.industry ∧
      (enrich_with_massive s d).dividendYield = s.dividendYield) ∧
    ((strPresent s.gicsSector = true →
        (enrich_with_alpha_vantage s o).gicsSector = s.gicsSector ∧
          (enrich_with_alpha_vantage s o).sector = s.sector) ∧
      (strPresent s.gicsIndustry = true →
        (enrich_with_alpha_vantage s o).gicsIndustry = s.gicsIndustry ∧
          (enrich_with_alpha_vantage s o).industry = s.industry) ∧
      (strPresent s.description = true →
        (enrich_with_alpha_vantage s o).description = s.description) ∧
      (numPresent s.dividendYield = true →
        (enrich_with_alpha_vantage s o).dividendYield = s.dividendYield) ∧
      (enrich_with_alpha_vantage s o).symbol = s.symbol ∧
      (enrich_with_alpha_vantage s o).sicCode = s.sicCode ∧
      (enrich_with_alpha_vantage s o).sicDescription = s.sicDescription) := by
  by_cases hsym : strPresent s.symbol = true
  · constructor
    · cases d with
      | none => simp [enrich_with_massive]
      | some dd =>
        rw [enrich_with_massive_some s dd hsym]
        exact ⟨fun h => fillStr_of_present _ _ h, fun h => fillStr_of_present _ _ h,
          fun h => massiveSectorFill_of_present _ _ _ h, fun h => fillStr_of_present _ _ h,
          rfl, rfl, rfl, rfl, rfl⟩
    · cases o with
      | none => simp [enrich_with_alpha_vantage]
      | some oo =>
        rw [enrich_with_alpha_vantage_some s oo hsym]
        exact ⟨fun h => ⟨fillStr_of_present _ _ h, linkFill_of_present _ _ _ h⟩,
          fun h => ⟨fillStr_of_present _ _ h, linkFill_of_present _ _ _ h⟩,
          fun h => fillStr_of_present _ _ h,
          fun h => avFillDY_of_present _ _ h, rfl, rfl, rfl⟩
  · have hsym2 : strPresent s.symbol = false := by
      cases hb : strPresent s.symbol
      · rfl
      · exact absurd hb hsym
    constructor
    · simp [enrich_with_massive, hsym2]
    · simp [enrich_with_alpha_vantage, hsym2]

/-- C4 amended, witness: on a record with a non-empty GICS sector and a
non-empty description, the Alpha Vantage merge overwrites nothing. -/
theorem C4_amended_fill_only_null_witness :
    strPresent (some "Technology") = true ∧
      (enrich_with_alpha_vantage
        { symbol := some "NVDA", sector := some "Technology", industry := some "Semis",
          gicsSector := some "Technology", gicsIndustry := some "Semis",
          sicCode := none, sicDescription := none, description := some "GPUs",
          dividendYield := some 1 }
        (some { sector := some "Energy", industry := some "Oil",
                description := some "other", dividendYield := some (some (1 / 50)) })).sector
        = some "Technology" :=
  ⟨rfl, by
    have h := (C4_amended_fill_only_null
      { symbol := some "NVDA", sector := some "Technology", industry := some "Semis",
        gicsSector := some "Technology", gicsIndustry := some "Semis",
        sicCode := none, sicDescription := none, description := some "GPUs",
        dividendYield := some 1 }
      none
      (some { sector := some "Energy", industry := some "Oil",
              description := some "other", dividendYield := some (some (1 / 50)) })).2.1
    exact (h rfl).2⟩

/-- C5: both secondary-provider merges are idempotent — applying the same
payload twice yields exactly the record obtained from applying it once. -/
theorem C5_merge_idempotent (s : PSec) (d : Option MassiveDetails)
    (o : Option AVOverview) :
    enrich_with_massive (enrich_with_massive s d) d = enrich_with_massive s d ∧
      enrich_with_alpha_vantage (enrich_with_alpha_vantage s o) o
        = enrich_with_alpha_vantage s o := by
  by_cases hsym : strPresent s.symbol = true
  · constructor
    · cases d with
      | none => simp [enrich_with_massive]
      | some dd =>
        have h1 := enrich_with_massive_some s dd hsym
        have hsym2 : strPresent (enrich_with_massive s (some dd)).symbol = true := by
          rw [h1]; exact hsym
        rw [enrich_with_massive_some (enrich_with_massive s (some dd)) dd hsym2, h1]
        exact PSec.ext rfl (massiveSectorFill_self _ _ _) rfl rfl rfl
          (fillStr_self _ _) (fillStr_self _ _) (fillStr_self _ _) rfl
    · cases o with
      | none => simp [enrich_with_alpha_vantage]
      | some oo =>
        have h1 := enrich_with_alpha_vantage_some s oo hsym
        have hsym2 : strPresent (enrich_with_alpha_vantage s (some oo)).symbol = true := by
          rw [h1]; exact hsym
        rw [enrich_with_alpha_vantage_some (enrich_with_alpha_vantage s (some oo)) oo hsym2, h1]
        exact PSec.ext rfl (linkFill_self _ _ _) (linkFill_self _ _ _)
          (fillStr_self _ _) (fillStr_self _ _) rfl rfl (fillStr_self _ _)
          (avFillDY_self _ _)
  · have hsym2 : strPresent s.symbol = false := by
      cases hb : strPresent s.symbol
      · rfl
      · exact absurd hb hsym
    constructor
    · simp [enrich_with_massive, hsym2]
    · simp [enrich_with_alpha_vantage, hsym2]

/-! ## ETF holdings persistence (`AutonomousEquityAnalyst.save_etf_holdings`)

The `etf_holdings` table has primary key `(etf_symbol, constituent_symbol)`;
`INSERT OR REPLACE` deletes the row with the same key (if any) and inserts
the new one.  The `last_updated` column (`datetime('now')`) is not
modelled; rows are identified by their data fields. -/

/-- A stored `etf_holdings` row. -/
structure HRow where
  etf : String
  constituent : String
  pct : Option ℚ
  rank : Option ℕ
  source : String
  deriving DecidableEq

/-- One element of the `holdings` argument (a dictionary produced by
`fetch_etf_holdings` or any caller). -/
structure HoldingIn where
  symbol : Option String
  name : Option String
  pct : Option ℚ
  rank : Option ℕ
  deriving DecidableEq

/-- The two tables `save_etf_holdings` touches.  `securities` is reduced
to the `(symbol, name)` columns the function writes. -/
structure HoldingsDB where
  securities : List (String × String)
  holdings : List HRow
  deriving DecidableEq

/-- Python `(h.get("symbol") or "").strip().upper()`. -/
def normCS (h : HoldingIn) : String :=
  upperStr (trimStr (h.symbol.getD ""))

/-- The row `save_etf_holdings` writes for one holding. -/
def newRowOf (etfU src : String) (h : HoldingIn) : HRow :=
  { etf := etfU, constituent := normCS h, pct := h.pct, rank := h.rank, source := src }

/-- SQLite `INSERT OR REPLACE` keyed on `(etf_symbol, constituent_symbol)`. -/
def upsertHolding (rows : List HRow) (r : HRow) : List HRow :=
  rows.filter (fun x => !(x.etf == r.etf && x.constituent == r.constituent)) ++ [r]

/-- `INSERT OR IGNORE` of a minimal securities row, guarded by the
existence check the Python code performs first. -/
def ensureSecurity (secs : List (String × String)) (sym nm : String) :
    List (String × String) :=
  if secs.any (fun p => p.1 == sym) then secs else secs ++ [(sym, nm)]

/-- Body of the `for h in holdings` loop. -/
def saveOneHolding (etfU src : String) (db : HoldingsDB) (h : HoldingIn) : HoldingsDB :=
  let cs := normCS h
  if cs = "" then db
  else
    let nm := trimStr (match h.name with
      | none => cs
      | some n => if n = "" then cs else n)
    { securities := ensureSecurity db.securities cs nm
      holdings := upsertHolding db.holdings (newRowOf etfU src h) }

/-- Model of `save_etf_holdings`: no-op on an empty list, otherwise one
upsert per holding with a non-empty normalized symbol.  No pre-existing
row is ever deleted except by a same-key replacement. -/
def save_etf_holdings (db : HoldingsDB) (etfSymbol : String)
    (holdings : List HoldingIn) (src : String) : HoldingsDB :=
  if holdings = [] then db
  else holdings.foldl (saveOneHolding (upperStr etfSymbol) src) db

theorem mem_upsertHolding_of_ne {rows : List HRow} {x r : HRow} (hx : x ∈ rows)
    (hne : ¬(x.etf = r.etf ∧ x.constituent = r.constituent)) :
    x ∈ upsertHolding rows r := by
  unfold upsertHolding
  refine List.mem_append_left _ (List.mem_filter.2 ⟨hx, ?_⟩)
  by_cases h1 : x.etf = r.etf
  · by_cases h2 : x.constituent = r.constituent
    · exact absurd ⟨h1, h2⟩ hne
    · simp [h1, h2]
  · simp [h1]

theorem self_mem_upsertHolding (rows : List HRow) (r : HRow) :
    r ∈ upsertHolding rows r :=
  List.mem_append_right _ (List.mem_singleton.2 rfl)

/-- Rows whose key collides with no processed holding survive the loop. -/
theorem mem_foldl_save_of_key_ne (etfU src : String) :
    ∀ (hs : List HoldingIn) (db : HoldingsDB) (r : HRow), r ∈ db.holdings →
      (∀ h ∈ hs, normCS h ≠ "" → ¬(r.etf = etfU ∧ r.constituent = normCS h)) →
      r ∈ (hs.foldl (saveOneHolding etfU src) db).holdings := by
  intro hs
  induction hs with
  | nil => intro db r hr _; exact hr
  | cons h0 t ih =>
    intro db r hr hkeys
    simp only [List.foldl_cons]
    by_cases hcs : normCS h0 = ""
    · have : saveOneHolding etfU src db h0 = db := by
        unfold saveOneHolding
        rw [if_pos hcs]
      rw [this]
      exact ih db r hr (fun h hmem => hkeys h (List.mem_cons_of_mem _ hmem))
    · have hdb1 : r ∈ (saveOneHolding etfU src db h0).holdings := by
        unfold saveOneHolding
        rw [if_neg hcs]
        exact mem_upsertHolding_of_ne hr
          (hkeys h0 (List.mem_cons_self _ _) hcs)
      exact ih _ r hdb1 (fun h hmem => hkeys h (List.mem_cons_of_mem _ hmem))

/-- Each processed holding leaves its row in the table, provided no later
holding in the batch has the same normalized symbol. -/
theorem newRow_mem_foldl_save (etfU src : String) :
    ∀ (hs : List HoldingIn) (db : HoldingsDB) (h : HoldingIn), h ∈ hs →
      normCS h ≠ "" → (hs.map normCS).Nodup →
      newRowOf etfU src h ∈ (hs.foldl (saveOneHolding etfU src) db).holdings := by
  intro hs
  induction hs with
  | nil => intro db h hmem; exact absurd hmem (List.not_mem_nil h)
  | cons h0 t ih =>
    intro db h hmem hcs hnd
    simp only [List.map_cons, List.nodup_cons] at hnd
    rcases List.mem_cons.1 hmem with heq | hmem2
    · subst heq
      simp only [List.foldl_cons]
      have hdb1 : newRowOf etfU src h ∈ (saveOneHolding etfU src db h).holdings := by
        unfold saveOneHolding
        rw [if_neg hcs]
        exact self_mem_upsertHolding _ _
      refine mem_foldl_save_of_key_ne etfU src t _ _ hdb1 ?_
      intro h2 hmem2 hcs2 hkey
      have hx : normCS h = normCS h2 := hkey.2
      exact hnd.1 (hx ▸ List.mem_map_of_mem normCS hmem2)
    · simp only [List.foldl_cons]
      exact ih _ h hmem2 hcs hnd.2

/-- Previous-refresh row used in the C9 counterexample. -/
def c9OldRow : HRow :=
  { etf := "SPY", constituent := "XOM", pct := some 1, rank := some 1, source := "yahoo" }

/-- Database state before the C9 counterexample save. -/
def c9Db : HoldingsDB :=
  { securities := [("SPY", "SPY"), ("XOM", "Exxon")], holdings := [c9OldRow] }

/-- Freshly fetched holdings set of the C9 counterexample. -/
def c9New : HoldingIn :=
  { symbol := some "AAPL", name := some "Apple", pct := some 2, rank := some 1 }

/-- C9 counterexample: saving the fetched set `[AAPL]` for `SPY` over a
database whose previous refresh stored the single row `(SPY, XOM)` leaves
the old `XOM` row in place, so the stored holdings for `SPY` are not
exactly the new one-element set (two rows remain). -/
theorem C9_counterexample :
    c9OldRow ∈ (save_etf_holdings c9Db "SPY" [c9New] "yahoo").holdings ∧
      "XOM" ∉ [normCS c9New] ∧
      ((save_etf_holdings c9Db "SPY" [c9New] "yahoo").holdings.filter
        (fun r => r.etf == "SPY")).length ≠ 1 := by
  refine ⟨?_, ?_, ?_⟩ <;> decide

/-- C9 amended: `save_etf_holdings` is a per-row upsert keyed on
`(etf_symbol, constituent_symbol)`: every stored row for a different ETF
survives, every stored row for this ETF whose constituent is not among
the new normalized symbols survives, and every holding of the batch with
a non-empty normalized symbol (and no duplicate symbol in the batch)
ends up stored with the new values.  Rows from an earlier refresh whose
constituents are absent from the new set are NOT removed. -/
theorem C9_amended_upsert (db : HoldingsDB) (etfSymbol src : String)
    (holdings : List HoldingIn) (r : HRow) (h : HoldingIn) :
    (r ∈ db.holdings → r.etf ≠ upperStr etfSymbol →
      r ∈ (save_etf_holdings db etfSymbol holdings src).holdings) ∧
      (r ∈ db.holdings → r.constituent ∉ holdings.map normCS →
        r ∈ (save_etf_holdings db etfSymbol holdings src).holdings) ∧
      (h ∈ holdings → normCS h ≠ "" → (holdings.map normCS).Nodup →
        newRowOf (upperStr etfSymbol) src h ∈
          (save_etf_holdings db etfSymbol holdings src).holdings) := by
  unfold save_etf_holdings
  by_cases hnil : holdings = []
  · rw [if_pos hnil]
    subst hnil
    exact ⟨fun hr _ => hr, fun hr _ => hr,
      fun hmem _ _ => absurd hmem (List.not_mem_nil h)⟩
  · rw [if_neg hnil]
    refine ⟨fun hr hne => ?_, fun hr hnc => ?_, fun hmem hcs hnd => ?_⟩
    · exact mem_foldl_save_of_key_ne _ _ holdings db r hr
        (fun h2 _ _ hk => hne hk.1)
    · exact mem_foldl_save_of_key_ne _ _ holdings db r hr
        (fun h2 hm2 _ hk => hnc (hk.2 ▸ List.mem_map_of_mem normCS hm2))
    · exact newRow_mem_foldl_save _ _ holdings db h hmem hcs hnd

/-- Previous-refresh row (for another ETF) used in the C9 witness. -/
def c9wOldRow : HRow :=
  { etf := "QQQ", constituent := "MSFT", pct := some 5, rank := some 1, source := "yahoo" }

/-- Database state before the C9 witness save. -/
def c9wDb : HoldingsDB := { securities := [], holdings := [c9wOldRow] }

/-- Freshly fetched holding of the C9 witness. -/
def c9wNew : HoldingIn :=
  { symbol := some "aapl", name := some "Apple", pct := some 3, rank := some 1 }

/-- C9 amended, witness: a row stored for `QQQ` survives a save for
`spy`, and the saved `AAPL` row is present afterwards. -/
theorem C9_amended_upsert_witness :
    c9wOldRow ∈ (save_etf_holdings c9wDb "spy" [c9wNew] "yahoo").holdings ∧
      newRowOf (upperStr "spy") "yahoo" c9wNew ∈
        (save_etf_holdings c9wDb "spy" [c9wNew] "yahoo").holdings :=
  ⟨(C9_amended_upsert c9wDb "spy" "yahoo" [c9wNew] c9wOldRow c9wNew).1
      (by decide) (by decide),
    (C9_amended_upsert c9wDb "spy" "yahoo" [c9wNew] c9wOldRow c9wNew).2.2
      (by decide) (by decide) (by decide)⟩

/-! ## Sliding-window rate limiter (`equity_analyst_agent.RateLimiter`)

`wait_if_needed` is driven by wall-clock time.  The model threads an
explicit clock: each invocation arrives `gap ≥ 0` seconds after the
previous one returned (the call sites are serialized, so the next call
cannot start before the previous `wait_if_needed` finished and its
timestamp was recorded).  `ts` is the `call_times` deque, `hist` the
full sequence of timestamps ever recorded (the deque only ever drops
elements from the front, so `hist = dropped ++ ts`). -/

structure LimState where
  hist : List ℚ
  ts : List ℚ
  clock : ℚ

/-- Model of `RateLimiter.wait_if_needed` with `max_calls = N` and
`time_window = W`: prune timestamps older than `now - W` from the front,
sleep `W - (now - oldest) + 1` when at the limit (re-pruning after the
sleep), then record the current time. -/
def wait_if_needed (N : ℕ) (W : ℚ) (s : LimState) (gap : ℚ) : LimState :=
  let now := s.clock + gap
  let ts1 := s.ts.dropWhile (fun t => decide (t < now - W))
  if N ≤ ts1.length then
    let oldest := ts1.headD 0
    let slp := W - (now - oldest) + 1
    let now2 := if 0 < slp then now + slp else now
    let ts2 := ts1.dropWhile (fun t => decide (t < now2 - W))
    { hist := s.hist ++ [now2], ts := ts2 ++ [now2], clock := now2 }
  else
    { hist := s.hist ++ [now], ts := ts1 ++ [now], clock := now }

/-- A run of the limiter from an idle start at time `t0`: one
`wait_if_needed` call per arrival gap. -/
def runLimiter (N : ℕ) (W : ℚ) (t0 : ℚ) (gaps : List ℚ) : LimState :=
  gaps.foldl (wait_if_needed N W) { hist := [], ts := [], clock := t0 }

/-- Any `N+1` consecutive recorded timestamps span strictly more than `W`
seconds. -/
def Spaced (N : ℕ) (W : ℚ) (l : List ℚ) : Prop :=
  ∀ (i j : ℕ) (hi : i < l.length) (hj : j < l.length),
    j = i + N → l.get ⟨i, hi⟩ + W < l.get ⟨j, hj⟩

/-- Run invariant of the limiter. -/
structure LimInv (N : ℕ) (W : ℚ) (s : LimState) : Prop where
  sorted : s.hist.Sorted (· ≤ ·)
  decomp : ∃ d, s.hist = d ++ s.ts ∧ ∀ t ∈ d, t < s.clock - W
  lenle : s.ts.length ≤ N
  clockub : ∀ t ∈ s.hist, t ≤ s.clock
  spaced : Spaced N W s.hist

theorem Spaced.append_singleton {N : ℕ} {W : ℚ} {l : List ℚ} {x : ℚ} (hN : 1 ≤ N)
    (h : Spaced N W l)
    (hx : ∀ hn : N ≤ l.length, l.get ⟨l.length - N, by omega⟩ + W < x) :
    Spaced N W (l ++ [x]) := by
  intro i j hi hj hij
  have hjlen : j < l.length + 1 := by simpa using hj
  by_cases hjl : j < l.length
  · have hil : i < l.length := by omega
    have e1 : (l ++ [x]).get ⟨i, hi⟩ = l.get ⟨i, hil⟩ := by
      simp only [List.get_eq_getElem]
      exact List.getElem_append_left hil
    have e2 : (l ++ [x]).get ⟨j, hj⟩ = l.get ⟨j, hjl⟩ := by
      simp only [List.get_eq_getElem]
      exact List.getElem_append_left hjl
    rw [e1, e2]
    exact h i j hil hjl hij
  · have hn : N ≤ l.length := by omega
    have hil : i < l.length := by omega
    have hieq : i = l.length - N := by omega
    have e1 : (l ++ [x]).get ⟨i, hi⟩ = l.get ⟨i, hil⟩ := by
      simp only [List.get_eq_getElem]
      exact List.getElem_append_left hil
    have e2 : (l ++ [x]).get ⟨j, hj⟩ = x := by
      simp only [List.get_eq_getElem]
      have hj2 : l.length ≤ j := by omega
      rw [List.getElem_append_right hj2]
      have : j - l.length = 0 := by omega
      simp [this]
    rw [e1, e2]
    have hfin : (⟨i, hil⟩ : Fin l.length) = ⟨l.length - N, by omega⟩ := by
      apply Fin.ext
      simpa using hieq
    rw [hfin]
    exact hx hn

/-- Tail of a spaced list is spaced. -/
theorem Spaced.tail {N : ℕ} {W : ℚ} {a : ℚ} {l : List ℚ}
    (h : Spaced N W (a :: l)) : Spaced N W l := by
  intro i j hi hj hij
  have := h (i + 1) (j + 1) (by simpa using Nat.succ_lt_succ hi)
    (by simpa using Nat.succ_lt_succ hj) (by omega)
  simpa using this

/-- In a sorted, `N`-spaced list, no half-open window `(T - W, T]`
contains more than `N` timestamps. -/
theorem countP_window_le_of_spaced (N : ℕ) (W : ℚ) (hN : 1 ≤ N) :
    ∀ (l : List ℚ), l.Sorted (· ≤ ·) → Spaced N W l → ∀ T : ℚ,
      l.countP (fun t => decide (T - W < t) && decide (t ≤ T)) ≤ N := by
  obtain ⟨M, rfl⟩ : ∃ M, N = M + 1 := ⟨N - 1, by omega⟩
  intro l
  induction l with
  | nil => intro _ _ T; simp
  | cons x rest ih =>
    intro hs hsp T
    have hs2 := (List.sorted_cons.1 hs).2
    have hsp2 := hsp.tail
    rw [List.countP_cons]
    by_cases hpx : (decide (T - W < x) && decide (x ≤ T)) = true
    · have hTx1 : T - W < x := by
        have h2 := hpx
        simp only [Bool.and_eq_true, decide_eq_true_eq] at h2
        exact h2.1
      rw [if_pos hpx]
      have hbound : rest.countP (fun t => decide (T - W < t) && decide (t ≤ T)) ≤ M := by
        by_cases hlen : rest.length ≤ M
        · exact le_trans (List.countP_le_length _) hlen
        · push_neg at hlen
          have hpivlt : M < rest.length := hlen
          have hXpv : x + W < rest.get ⟨M, hpivlt⟩ := by
            have h1 : (0 : ℕ) < (x :: rest).length := by simp
            have h2 : M + 1 < (x :: rest).length := by
              simp only [List.length_cons]
              omega
            have hsp0 := hsp 0 (M + 1) h1 h2 (by omega)
            have eN : (x :: rest).get ⟨M + 1, h2⟩ = rest.get ⟨M, hpivlt⟩ := by
              simp only [List.get_eq_getElem]
              exact List.getElem_cons_succ ..
            have e0 : (x :: rest).get ⟨0, h1⟩ = x := rfl
            rw [eN, e0] at hsp0
            exact hsp0
          have hsplit : rest.countP (fun t => decide (T - W < t) && decide (t ≤ T))
              = (rest.take M).countP (fun t => decide (T - W < t) && decide (t ≤ T))
                + (rest.drop M).countP (fun t => decide (T - W < t) && decide (t ≤ T)) := by
            rw [← List.countP_append, List.take_append_drop]
          have hdrop : (rest.drop M).countP
              (fun t => decide (T - W < t) && decide (t ≤ T)) = 0 := by
            rw [List.countP_eq_zero]
            intro t ht
            rcases List.mem_iff_get.1 ht with ⟨k, hk⟩
            have hk2 : M + k.1 < rest.length := by
              have := k.2
              simp only [List.length_drop] at this
              omega
            have e3 : (rest.drop M).get k = rest.get ⟨M + k.1, hk2⟩ := by
              simp only [List.get_eq_getElem]
              rw [List.getElem_drop]
            have hmono : rest.get ⟨M, hpivlt⟩ ≤ rest.get ⟨M + k.1, hk2⟩ := by
              rcases Nat.eq_zero_or_pos k.1 with hz | hpos
              · have : (⟨M, hpivlt⟩ : Fin rest.length) = ⟨M + k.1, hk2⟩ := by
                  apply Fin.ext
                  simp [hz]
                rw [this]
              · refine hs2.rel_get_of_lt (a := ⟨M, hpivlt⟩) (b := ⟨M + k.1, hk2⟩) ?_
                simp only [Fin.mk_lt_mk]
                omega
            have htv : t = rest.get ⟨M + k.1, hk2⟩ := by
              rw [← hk, e3]
            have hTt : T < t := by
              rw [htv]
              have : T < rest.get ⟨M, hpivlt⟩ := by linarith
              linarith
            have : ¬(t ≤ T) := not_le.2 hTt
            simp [this]
          have htake : (rest.take M).countP
              (fun t => decide (T - W < t) && decide (t ≤ T)) ≤ M := by
            refine le_trans (List.countP_le_length _) ?_
            simp [List.length_take]
          omega
      omega
    · have hfalse : (decide (T - W < x) && decide (x ≤ T)) = false := by
        cases hb : (decide (T - W < x) && decide (x ≤ T))
        · rfl
        · exact absurd hb hpx
      rw [if_neg (by simp [hfalse])]
      simpa using ih hs2 hsp2 T

theorem length_dropWhile_le_self {α : Type} (p : α → Bool) (l : List α) :
    (l.dropWhile p).length ≤ l.length := by
  have h := congrArg List.length (List.takeWhile_append_dropWhile (p := p) (l := l))
  simp only [List.length_append] at h
  omega

theorem sorted_append_singleton {l : List ℚ} {x : ℚ} (hs : l.Sorted (· ≤ ·))
    (hx : ∀ t ∈ l, t ≤ x) : (l ++ [x]).Sorted (· ≤ ·) := by
  apply List.pairwise_append.2
  refine ⟨hs, List.pairwise_singleton _ _, fun a ha b hb => ?_⟩
  rcases List.mem_singleton.1 hb with rfl
  exact hx a ha

theorem get_append_mem_left {A B : List ℚ} {i : ℕ} (hi : i < A.length)
    (hib : i < (A ++ B).length) : (A ++ B).get ⟨i, hib⟩ ∈ A := by
  have h : (A ++ B).get ⟨i, hib⟩ = A.get ⟨i, hi⟩ := by
    simp only [List.get_eq_getElem]
    exact List.getElem_append_left hi
  rw [h]
  exact A.get_mem _ _

/-- Splitting the list under an appended element along a
takeWhile/dropWhile boundary. -/
theorem split_append_singleton {α : Type} (p : α → Bool) (A l : List α) (x : α) :
    (A ++ l) ++ [x] = (A ++ l.takeWhile p) ++ (l.dropWhile p ++ [x]) := by
  conv_lhs => rw [← List.takeWhile_append_dropWhile p l]
  simp only [List.append_assoc]

/-- The invariant holds of the idle initial state. -/
theorem limInv_init (N : ℕ) (W t0 : ℚ) :
    LimInv N W { hist := [], ts := [], clock := t0 } where
  sorted := List.sorted_nil
  decomp := ⟨[], rfl, fun t ht => absurd ht (List.not_mem_nil t)⟩
  lenle := by simp
  clockub := fun t ht => absurd ht (List.not_mem_nil t)
  spaced := fun i j hi _ _ => absurd hi (by simp)

/-- One `wait_if_needed` call preserves the invariant. -/
theorem limInv_step (N : ℕ) (W : ℚ) (s : LimState) (gap : ℚ) (hN : 1 ≤ N)
    (hgap : 0 ≤ gap) (inv : LimInv N W s) :
    LimInv N W (wait_if_needed N W s gap) := by
  obtain ⟨d, hd, hdold⟩ := inv.decomp
  have hclock_now : s.clock ≤ s.clock + gap := by linarith
  have hts_split : s.ts.takeWhile (fun t => decide (t < s.clock + gap - W))
      ++ s.ts.dropWhile (fun t => decide (t < s.clock + gap - W)) = s.ts :=
    List.takeWhile_append_dropWhile _ _
  have hA : ∀ t ∈ d ++ s.ts.takeWhile (fun t => decide (t < s.clock + gap - W)),
      t < s.clock + gap - W := by
    intro t ht
    rcases List.mem_append.1 ht with h1 | h2
    · have := hdold t h1
      linarith
    · have := List.mem_takeWhile_imp h2
      simpa using this
  have hhist_split : s.hist
      = (d ++ s.ts.takeWhile (fun t => decide (t < s.clock + gap - W)))
        ++ s.ts.dropWhile (fun t => decide (t < s.clock + gap - W)) := by
    rw [hd, List.append_assoc, hts_split]
  have hlen1 : (s.ts.dropWhile (fun t => decide (t < s.clock + gap - W))).length
      ≤ s.ts.length := length_dropWhile_le_self _ _
  by_cases hcase :
      N ≤ (s.ts.dropWhile (fun t => decide (t < s.clock + gap - W))).length
  · -- at the limit: sleep, re-prune, record the post-sleep time
    have hlenN : (s.ts.dropWhile (fun t => decide (t < s.clock + gap - W))).length
        = N := by
      have := inv.lenle
      omega
    have hne : s.ts.dropWhile (fun t => decide (t < s.clock + gap - W)) ≠ [] := by
      intro hnil
      rw [hnil] at hlenN
      simp at hlenN
      omega
    obtain ⟨o1, rest1, hts1eq⟩ := List.exists_cons_of_ne_nil hne
    have ho1 : ¬(o1 < s.clock + gap - W) := by
      have hpos : 0 < (s.ts.dropWhile
          (fun t => decide (t < s.clock + gap - W))).length := by omega
      have hnp := List.dropWhile_get_zero_not
        (fun t => decide (t < s.clock + gap - W)) s.ts hpos
      have hget0 : (s.ts.dropWhile
          (fun t => decide (t < s.clock + gap - W))).get ⟨0, hpos⟩ = o1 :=
        List.get_of_eq hts1eq ⟨0, hpos⟩
      rw [hget0] at hnp
      simpa using hnp
    have holow : s.clock + gap - W ≤ o1 := not_lt.1 ho1
    have hslp : 0 < W - (s.clock + gap - o1) + 1 := by linarith
    have hstep : wait_if_needed N W s gap =
        { hist := s.hist ++ [s.clock + gap + (W - (s.clock + gap - o1) + 1)]
          ts := (o1 :: rest1).dropWhile
              (fun t => decide (t < s.clock + gap + (W - (s.clock + gap - o1) + 1) - W))
            ++ [s.clock + gap + (W - (s.clock + gap - o1) + 1)]
          clock := s.clock + gap + (W - (s.clock + gap - o1) + 1) } := by
      simp only [wait_if_needed]
      rw [if_pos hcase, hts1eq]
      simp only [List.headD_cons]
      rw [if_pos hslp]
    rw [hstep]
    have hcut : s.clock + gap + (W - (s.clock + gap - o1) + 1) - W = o1 + 1 := by ring
    have hpo : (fun t => decide
        (t < s.clock + gap + (W - (s.clock + gap - o1) + 1) - W)) o1 = true := by
      simp only [decide_eq_true_eq]
      rw [hcut]
      linarith
    have hts2eq : (o1 :: rest1).dropWhile
        (fun t => decide (t < s.clock + gap + (W - (s.clock + gap - o1) + 1) - W))
        = rest1.dropWhile
          (fun t => decide (t < s.clock + gap + (W - (s.clock + gap - o1) + 1) - W)) :=
      List.dropWhile_cons_of_pos hpo
    have hrest1len : rest1.length + 1 = N := by
      rw [hts1eq] at hlenN
      simpa using hlenN
    have hlen2 : (rest1.dropWhile (fun t => decide
        (t < s.clock + gap + (W - (s.clock + gap - o1) + 1) - W))).length
        ≤ rest1.length := length_dropWhile_le_self _ _
    have hnow_le : s.clock + gap ≤ s.clock + gap + (W - (s.clock + gap - o1) + 1) := by
      linarith
    have hmemhist : ∀ t ∈ s.hist,
        t ≤ s.clock + gap + (W - (s.clock + gap - o1) + 1) := by
      intro t ht
      have h1 := inv.clockub t ht
      linarith
    constructor
    · exact sorted_append_singleton inv.sorted hmemhist
    · refine ⟨(d ++ s.ts.takeWhile (fun t => decide (t < s.clock + gap - W)))
        ++ (o1 :: rest1).takeWhile (fun t => decide
          (t < s.clock + gap + (W - (s.clock + gap - o1) + 1) - W)), ?_, ?_⟩
      · show s.hist ++ _ = _
        rw [hhist_split, hts1eq]
        exact split_append_singleton _ _ _ _
      · intro t ht
        rcases List.mem_append.1 ht with h1 | h2
        · have := hA t h1
          show t < s.clock + gap + (W - (s.clock + gap - o1) + 1) - W
          linarith
        · have := List.mem_takeWhile_imp h2
          simpa using this
    · show ((o1 :: rest1).dropWhile _ ++ _).length ≤ N
      rw [hts2eq]
      simp only [List.length_append, List.length_singleton]
      omega
    · intro t ht
      rcases List.mem_append.1 ht with h1 | h2
      · exact hmemhist t h1
      · rcases List.mem_singleton.1 h2 with rfl
        exact le_refl _
    · refine inv.spaced.append_singleton hN ?_
      intro hn
      have hform : s.hist
          = (d ++ s.ts.takeWhile (fun t => decide (t < s.clock + gap - W)))
            ++ (o1 :: rest1) := by
        rw [hhist_split, hts1eq]
      have hAlen : s.hist.length
          = (d ++ s.ts.takeWhile (fun t => decide (t < s.clock + gap - W))).length
            + N := by
        rw [hform, List.length_append]
        simp only [List.length_cons]
        omega
      have hb : s.hist.length - N < s.hist.length := by omega
      have hb2 : s.hist.length - N
          < ((d ++ s.ts.takeWhile (fun t => decide (t < s.clock + gap - W)))
            ++ (o1 :: rest1)).length := by
        rw [← hform]
        omega
      have e1 : s.hist.get ⟨s.hist.length - N, hb⟩
          = ((d ++ s.ts.takeWhile (fun t => decide (t < s.clock + gap - W)))
            ++ (o1 :: rest1)).get ⟨s.hist.length - N, hb2⟩ :=
        List.get_of_eq hform _
      rw [e1]
      have e2 : ((d ++ s.ts.takeWhile (fun t => decide (t < s.clock + gap - W)))
          ++ (o1 :: rest1)).get ⟨s.hist.length - N, hb2⟩ = o1 := by
        simp only [List.get_eq_getElem]
        rw [List.getElem_append_right (by omega)]
        have h0 : s.hist.length - N
            - (d.length
              + (s.ts.takeWhile (fun t => decide (t < s.clock + gap - W))).length)
            = 0 := by
          simp only [List.length_append] at hAlen
          omega
        simp [h0]
      rw [e2]
      linarith
  · -- below the limit: record immediately
    push_neg at hcase
    have hstep : wait_if_needed N W s gap =
        { hist := s.hist ++ [s.clock + gap]
          ts := s.ts.dropWhile (fun t => decide (t < s.clock + gap - W))
            ++ [s.clock + gap]
          clock := s.clock + gap } := by
      simp only [wait_if_needed]
      rw [if_neg (by omega)]
    rw [hstep]
    have hmemhist : ∀ t ∈ s.hist, t ≤ s.clock + gap := by
      intro t ht
      have := inv.clockub t ht
      linarith
    constructor
    · exact sorted_append_singleton inv.sorted hmemhist
    · refine ⟨d ++ s.ts.takeWhile (fun t => decide (t < s.clock + gap - W)), ?_, ?_⟩
      · show s.hist ++ _ = _
        rw [hd]
        exact split_append_singleton _ _ _ _
      · intro t ht
        exact hA t ht
    · simp only [List.length_append, List.length_singleton]
      omega
    · intro t ht
      rcases List.mem_append.1 ht with h1 | h2
      · exact hmemhist t h1
      · rcases List.mem_singleton.1 h2 with rfl
        exact le_refl _
    · refine inv.spaced.append_singleton hN ?_
      intro hn
      have hAlen : s.hist.length
          = (d ++ s.ts.takeWhile (fun t => decide (t < s.clock + gap - W))).length
            + (s.ts.dropWhile (fun t => decide (t < s.clock + gap - W))).length := by
        rw [hhist_split, List.length_append]
      have hidx : s.hist.length - N
          < (d ++ s.ts.takeWhile (fun t => decide (t < s.clock + gap - W))).length := by
        omega
      have hb : s.hist.length - N < s.hist.length := by omega
      have hb2 : s.hist.length - N
          < ((d ++ s.ts.takeWhile (fun t => decide (t < s.clock + gap - W)))
            ++ s.ts.dropWhile (fun t => decide (t < s.clock + gap - W))).length := by
        rw [← hhist_split]
        omega
      have e1 : s.hist.get ⟨s.hist.length - N, hb⟩
          = ((d ++ s.ts.takeWhile (fun t => decide (t < s.clock + gap - W)))
            ++ s.ts.dropWhile (fun t => decide (t < s.clock + gap - W))).get
              ⟨s.hist.length - N, hb2⟩ :=
        List.get_of_eq hhist_split _
      have hmem := get_append_mem_left hidx hb2
      rw [e1]
      have := hA _ hmem
      linarith

/-- C1: for every configuration (`N` max calls, `W`-second window) and
every serialized sequence of `wait_if_needed` calls on one limiter
instance (each call arriving no earlier than the previous one returned),
no trailing `W`-second window `(T - W, T]` ever contains more than `N`
recorded call timestamps. -/
theorem C1_sliding_window (N : ℕ) (W t0 T : ℚ) (gaps : List ℚ)
    (hN : 1 ≤ N) (hgaps : ∀ g ∈ gaps, 0 ≤ g) :
    (runLimiter N W t0 gaps).hist.countP
      (fun t => decide (T - W < t) && decide (t ≤ T)) ≤ N := by
  have hfold : ∀ (gs : List ℚ) (s : LimState), LimInv N W s → (∀ g ∈ gs, 0 ≤ g) →
      LimInv N W (gs.foldl (wait_if_needed N W) s) := by
    intro gs
    induction gs with
    | nil => intro s hs _; exact hs
    | cons g t ihg =>
      intro s hs hg
      simp only [List.foldl_cons]
      exact ihg _ (limInv_step N W s g hN (hg g (List.mem_cons_self _ _)) hs)
        (fun g2 h2 => hg g2 (List.mem_cons_of_mem _ h2))
  have hinv : LimInv N W (runLimiter N W t0 gaps) :=
    hfold gaps _ (limInv_init N W t0) hgaps
  exact countP_window_le_of_spaced N W hN _ hinv.sorted hinv.spaced T

/-- C1 witness: three back-to-back calls on a 2-per-60s limiter never put
more than 2 timestamps in the window ending at time 100. -/
theorem C1_sliding_window_witness :
    (runLimiter 2 60 0 [0, 0, 0]).hist.countP
      (fun t => decide ((100 : ℚ) - 60 < t) && decide (t ≤ 100)) ≤ 2 :=
  C1_sliding_window 2 60 0 100 [0, 0, 0] (by norm_num) (by
    intro g hg
    simp only [List.mem_cons, List.not_mem_nil, or_false] at hg
    rcases hg with rfl | rfl | rfl <;> norm_num)

/-! ## Daily-capped limiter (`alpha_vantage_client.AlphaVantageRateLimiter`)

`wait_if_needed` here additionally tracks a per-calendar-day counter.
Calendar days are modelled as `⌊now / 86400⌋` (midnight at each multiple
of 86400 seconds); `current_date` is the stored `self.current_date`.
The function either raises (daily cap hit — modelled as `Except.error`
carrying the `wait_seconds` until the next midnight, with no sleep and
no state change) or records the call; the returned rational alongside
the new state is the wall-clock time when the call returns (after any
minute-window sleep).  Note the source appends the pre-sleep `now` to
both histories even after sleeping. -/

structure AVState where
  minuteCalls : List ℚ
  dailyCalls : List ℚ
  currentDate : ℤ
  deriving DecidableEq

/-- Calendar day of a timestamp (`datetime.now().date()`). -/
def dayOf (now : ℚ) : ℤ := ⌊now / 86400⌋

/-- Model of `AlphaVantageRateLimiter.wait_if_needed` at wall-clock time
`now`, with `calls_per_minute = cpm` and `calls_per_day = cpd`. -/
def av_wait_if_needed (cpm cpd : ℕ) (s : AVState) (now : ℚ) :
    Except ℚ (AVState × ℚ) :=
  let date := dayOf now
  let daily := if date ≠ s.currentDate then [] else s.dailyCalls
  let cur := if date ≠ s.currentDate then date else s.currentDate
  if cpd ≤ daily.length then
    Except.error ((date + 1) * 86400 - now)
  else
    let m1 := s.minuteCalls.dropWhile (fun t => decide (t < now - 60))
    if cpm ≤ m1.length then
      let oldest := m1.headD 0
      let now2 := now + (60 - (now - oldest) + 1)
      let m2 := m1.dropWhile (fun t => decide (t < now2 - 60))
      let s2 : AVState :=
        { minuteCalls := m2 ++ [now]
          dailyCalls := daily ++ [now]
          currentDate := cur }
      Except.ok (s2, now2)
    else
      let s2 : AVState :=
        { minuteCalls := m1 ++ [now]
          dailyCalls := daily ++ [now]
          currentDate := cur }
      Except.ok (s2, now)

/-- Daily-call count after a successful invocation (`none` on error). -/
def avDailyCountAfter (cpm cpd : ℕ) (s : AVState) (now : ℚ) : Option ℕ :=
  match av_wait_if_needed cpm cpd s now with
  | Except.error _ => none
  | Except.ok p => some p.1.dailyCalls.length

/-- Stored date after a successful invocation (`none` on error). -/
def avDateAfter (cpm cpd : ℕ) (s : AVState) (now : ℚ) : Option ℤ :=
  match av_wait_if_needed cpm cpd s now with
  | Except.error _ => none
  | Except.ok p => some p.1.currentDate

/-- C2: once the `cpd`-th call of a calendar day has been recorded, an
invocation later the same day raises immediately with the exact number
of seconds until the next midnight (it reaches neither the sleep nor the
record step), and an invocation on any different calendar day — however
close to the previous calls, in particular less than 24 hours after the
first call of the previous day — resets the daily counter at the day
boundary and records as the single daily call of the new day. -/
theorem C2_daily_cap_reset (cpm cpd : ℕ) (s : AVState) (now nxt : ℚ)
    (hD : s.dailyCalls.length = cpd)
    (hsame : dayOf now = s.currentDate)
    (hdiff : dayOf nxt ≠ s.currentDate)
    (hcpd : 0 < cpd) :
    av_wait_if_needed cpm cpd s now
        = Except.error ((s.currentDate + 1) * 86400 - now) ∧
      avDailyCountAfter cpm cpd s nxt = some 1 ∧
      avDateAfter cpm cpd s nxt = some (dayOf nxt) := by
  have h1 : ¬(dayOf now ≠ s.currentDate) := by simp [hsame]
  have hfull : cpd ≤ s.dailyCalls.length := le_of_eq hD.symm
  have hempty : ¬(cpd ≤ ([] : List ℚ).length) := by
    simp only [List.length_nil]
    omega
  refine ⟨?_, ?_, ?_⟩
  · simp only [av_wait_if_needed]
    rw [if_neg h1, if_neg h1, if_pos hfull, hsame]
  · unfold avDailyCountAfter
    simp only [av_wait_if_needed]
    rw [if_pos hdiff, if_pos hdiff, if_neg hempty]
    by_cases hm : cpm ≤ (s.minuteCalls.dropWhile (fun t => decide (t < nxt - 60))).length
    · rw [if_pos hm]
      rfl
    · rw [if_neg hm]
      rfl
  · unfold avDateAfter
    simp only [av_wait_if_needed]
    rw [if_pos hdiff, if_pos hdiff, if_neg hempty]
    by_cases hm : cpm ≤ (s.minuteCalls.dropWhile (fun t => decide (t < nxt - 60))).length
    · rw [if_pos hm]
    · rw [if_neg hm]

/-- Exhausted-day limiter state used in the C2 witness. -/
def c2State : AVState :=
  { minuteCalls := [], dailyCalls := [10, 20], currentDate := 0 }

/-- C2 witness: with the daily cap (2) exhausted at timestamps 10 and 20
of day 0, a call at `now = 100` errors with 86300 seconds until reset,
and a call at `nxt = 86405` (less than 24 hours after the first call of
day 0) succeeds as call 1 of day 1. -/
theorem C2_daily_cap_reset_witness :
    av_wait_if_needed 5 2 c2State 100
        = Except.error ((((0 : ℤ) : ℚ) + 1) * 86400 - 100) ∧
      avDailyCountAfter 5 2 c2State 86405 = some 1 ∧
      avDateAfter 5 2 c2State 86405 = some (dayOf 86405) :=
  C2_daily_cap_reset 5 2 c2State 100 86405 (by decide)
    (by unfold dayOf c2State; norm_num)
    (by unfold dayOf c2State; norm_num)
    (by norm_num)

/-! ## Backfill run deduplication (`backfill_etf_full.main`)

The run keeps a `fetched_this_run` set; a symbol is added only when its
security-data fetch returned data.  The model tracks, in `log`, every
upstream security-data fetch performed (an invocation of
`_fetch_security_data` that misses the cache); `cached` tells whether a
symbol has a fresh cache row (then no upstream call happens), `ok`
whether the upstream fetch returns data, and `holdingsOf` the
constituent symbols of an ETF whose holdings fetch succeeds.  Python
`sorted(set(...))` over the constituents is modelled by `List.dedup`
(the iteration order does not matter to the fetch-count property). -/

structure BFState where
  fetched : List String
  log : List String
  constituents : List String
  deriving DecidableEq

/-- Model of `_fetch_security_data` as seen by the backfill: returns the
updated run state (logging the upstream call on a cache miss) and
whether data was obtained. -/
def fetch_security_step (cached ok : String → Bool) (st : BFState) (sym : String) :
    BFState × Bool :=
  if cached sym then (st, true)
  else ({ st with log := st.log ++ [sym] }, ok sym)

/-- Step 1 body: fetch and save the ETF, then fetch its holdings and
collect constituent symbols.  A symbol joins `fetched` only when its
data fetch succeeded. -/
def bf_step1 (cached ok : String → Bool) (holdingsOf : String → List String)
    (st : BFState) (sym : String) : BFState :=
  if sym ∈ st.fetched then st
  else
    let p := fetch_security_step cached ok st sym
    let st2 := if p.2 then { p.1 with fetched := p.1.fetched ++ [sym] } else p.1
    { st2 with constituents := st2.constituents ++ holdingsOf sym }

/-- Step 2 body: enrich one constituent. -/
def bf_step2 (cached ok : String → Bool) (st : BFState) (sym : String) : BFState :=
  if sym ∈ st.fetched then st
  else
    let p := fetch_security_step cached ok st sym
    if p.2 then { p.1 with fetched := p.1.fetched ++ [sym] } else p.1

/-- Model of `backfill_etf_full.main` (default path): step 1 over the
ETF list, then step 2 over the deduplicated union of the constituents
gathered this run and the distinct constituents already in the
`etf_holdings` table. -/
def backfill_main (cached ok : String → Bool) (holdingsOf : String → List String)
    (etfs dbConstituents : List String) : BFState :=
  let st1 := etfs.foldl (bf_step1 cached ok holdingsOf)
    { fetched := [], log := [], constituents := [] }
  let cons := (st1.constituents ++ dbConstituents).dedup
  cons.foldl (bf_step2 cached ok) st1

/-- C10, evaluated at the failing input: ETF list `[ABC]` where `ABC`
also appears as a constituent in the stored `etf_holdings` rows, no
fresh cache, and the upstream fetch for `ABC` returns no data.  Step 1
fetches `ABC` upstream but does not add it to `fetched_this_run`
(that happens only under `if data:`), so step 2 fetches it upstream a
second time: two upstream fetch calls for one ticker in one run,
contradicting the claim and the script docstring ("never fetches the
same symbol twice in a single run"). -/
theorem C10_double_fetch :
    (backfill_main (fun _ => false) (fun s => !(s == "ABC")) (fun _ => [])
        ["ABC"] ["ABC"]).log = ["ABC", "ABC"] ∧
      ((backfill_main (fun _ => false) (fun s => !(s == "ABC")) (fun _ => [])
        ["ABC"] ["ABC"]).log.count "ABC") = 2 := by
  constructor <;> decide

/-! ## Alignment scorer (`equity_analyst_agent.AlignmentScorer`)

`score_alignment` combines six factor sub-scores and rescales the raw
sum (out of 14) to a 0-10 scale.  The company details dictionary is the
one `_get_company_details` produces (from the Alpha Vantage overview or
from the security object — both yield the same shape); the optional
Yahoo Finance inputs gate factors 5 and 6 exactly as the
`self.yahoo_finance` checks do.  Rationale strings are carried for the
factor functions that return them verbatim; the f-string numeric
interpolations of the momentum/dividend rationales are presentation
only and are not modelled. -/

structure Thesis where
  id : String
  title : String
  summary : String
  deriving DecidableEq

structure AgentSecurity where
  ticker : String
  name : String
  description : String
  sector : String
  industry : String
  deriving DecidableEq

structure Details where
  ticker : String
  name : String
  description : String
  sector : String
  industry : String
  deriving DecidableEq

/-- Dividend payload of `yahoo_finance.get_stock_dividend`: the yield (a
decimal fraction) and the payment amounts, newest first (the code reads
`dividends[0]` as newest and `dividends[-1]` as oldest). -/
structure DivData where
  dividendYield : ℚ
  dividends : List ℚ
  deriving DecidableEq

/-- Optional Yahoo Finance inputs of one scoring call: 1y closing-price
history (oldest first) and dividend data; `none` models an unavailable
client or a fetch that returned nothing. -/
structure YahooData where
  hist : Option (List ℚ)
  divData : Option DivData
  deriving DecidableEq

/-- `thesis.get("title", "") + " " + thesis.get("summary", "")`, lowered. -/
def thesisText (t : Thesis) : String :=
  lowerStr (t.title ++ " " ++ t.summary)

/-- `json.dumps(thesis)` for the `id`/`title`/`summary` dictionary
(plain ASCII values, so JSON escaping is the identity). -/
def thesisJson (t : Thesis) : String :=
  "\x7b\x22id\x22: \x22" ++ t.id ++ "\x22, \x22title\x22: \x22" ++ t.title
    ++ "\x22, \x22summary\x22: \x22" ++ t.summary ++ "\x22\x7d"

/-- `AlignmentScorer._mentioned_in_thesis`. -/
def mentioned_in_thesis (sec : AgentSecurity) (t : Thesis) : Bool :=
  strContains (upperStr (thesisJson t)) (upperStr sec.ticker)

/-- The fallback branch of `_get_company_details` (security object data). -/
def detailsOfSecurity (s : AgentSecurity) : Details :=
  { ticker := s.ticker, name := s.name, description := s.description,
    sector := s.sector, industry := s.industry }

/-- Keyword list accumulated from the thesis text by
`_score_business_description`. -/
def businessKeywords (tt : String) : List String :=
  (if strContains tt "ai" || strContains tt "artificial intelligence" then
    ["ai", "artificial intelligence", "machine learning", "gpu", "data center",
     "cloud", "neural"] else [])
  ++ (if strContains tt "semiconductor" || strContains tt "chip" then
    ["semiconductor", "chip", "processor", "fabrication", "wafer"] else [])
  ++ (if strContains tt "infrastructure" then
    ["infrastructure", "data center", "colocation", "hosting", "connectivity"] else [])
  ++ (if strContains tt "power" || strContains tt "energy" || strContains tt "utility" then
    ["power", "energy", "utility", "electric", "generation", "transmission"] else [])
  ++ (if strContains tt "defense" || strContains tt "military" then
    ["defense", "military", "aerospace", "weapons", "combat"] else [])
  ++ (if strContains tt "china" then
    ["china", "chinese", "asia", "export"] else [])
  ++ (if strContains tt "inflation" || strContains tt "commodity" then
    ["commodity", "gold", "copper", "lithium", "mining", "resources"] else [])
  ++ (if strContains tt "housing" || strContains tt "real estate" then
    ["housing", "residential", "apartment", "reit", "multifamily", "rental"] else [])

/-- `AlignmentScorer._score_business_description` (0-3 points). -/
def score_business_description (d : Details) (tt : String) : ℚ × String :=
  if d.description == "" then
    (1 / 2, "Limited business information available")
  else
    let desc := lowerStr d.description
    let keywords := businessKeywords tt
    let hits : ℕ := keywords.countP (fun kw => strContains desc kw)
    let density : ℚ := if keywords.isEmpty then 0
      else (hits : ℚ) / (keywords.length : ℚ)
    if 2 / 5 ≤ density then
      (3, "Strong business model alignment - core business directly addresses thesis")
    else if 1 / 4 ≤ density then
      (5 / 2, "High business model alignment - significant operations in thesis area")
    else if 3 / 20 ≤ density then
      (2, "Meaningful business model alignment - substantial exposure to thesis theme")
    else if 2 / 25 ≤ density then
      (3 / 2, "Moderate business model alignment - some operations related to thesis")
    else if 1 / 25 ≤ density then
      (1, "Limited business model alignment - tangential exposure to thesis")
    else
      (1 / 2, "Minimal business model alignment - limited relevance to thesis")

/-- First matching theme of `_estimate_revenue_exposure`, in the source
dictionary insertion order. -/
def revenueTheme (tt : String) : Option String :=
  if ["ai", "artificial intelligence", "data center", "gpu"].any
      (fun k => strContains tt k) then some "ai_infrastructure"
  else if ["semiconductor", "chip"].any (fun k => strContains tt k) then
    some "semiconductor"
  else if ["power", "utility", "energy", "electric"].any
      (fun k => strContains tt k) then some "power"
  else if ["defense", "military", "aerospace"].any (fun k => strContains tt k) then
    some "defense"
  else if ["real estate", "reit", "housing"].any (fun k => strContains tt k) then
    some "real_estate"
  else if ["china", "chinese"].any (fun k => strContains tt k) then some "china"
  else if ["commodity", "mining", "copper", "lithium", "gold"].any
      (fun k => strContains tt k) then some "commodities"
  else none

/-- The per-theme exposure-percentage decision table of
`_estimate_revenue_exposure`. -/
def exposurePct (theme : String) (d : Details) : ℚ :=
  let desc := lowerStr d.description
  let nm := lowerStr d.name
  let sec := lowerStr d.sector
  if theme == "ai_infrastructure" then
    if strContains nm "nvidia" || strContains desc "nvda" then 85
    else if strContains nm "amd" || strContains nm "advanced micro" then 60
    else if strContains desc "data center" && strContains sec "reit" then 75
    else if strContains sec "semiconductor"
        && ["gpu", "ai", "accelerator"].any (fun k => strContains desc k) then 70
    else if strContains sec "semiconductor" then 40
    else if strContains desc "cloud" || strContains desc "azure" then 35
    else if strContains sec "utility" && strContains desc "data center" then 25
    else if strContains sec "utility" then 8
    else 15
  else if theme == "semiconductor" then
    if strContains desc "fabrication" || strContains desc "foundry" then 90
    else if strContains desc "lithography" || strContains nm "asml" then 95
    else if strContains sec "semiconductor" then 80
    else if strContains desc "equipment" && strContains desc "semiconductor" then 85
    else 20
  else if theme == "defense" then
    if strContains sec "defense" || strContains sec "aerospace" then 70
    else if strContains desc "military" then 60
    else if strContains desc "government" && strContains desc "contractor" then 50
    else 15
  else if theme == "power" then
    if strContains desc "renewable" || strContains desc "clean energy" then 80
    else if strContains sec "utility" || strContains sec "electric" then 90
    else if strContains desc "power generation" then 85
    else if strContains desc "natural gas" && strContains desc "lng" then 75
    else 30
  else if theme == "real_estate" then
    if strContains sec "reit" then 95
    else if strContains desc "residential" || strContains desc "multifamily" then 85
    else if strContains desc "homebuilder" || strContains desc "housing" then 90
    else 25
  else if theme == "china" then
    if strContains desc "china" || strContains desc "chinese" then 80
    else if strContains desc "asia" || strContains desc "hong kong" then 60
    else 20
  else if theme == "commodities" then
    if strContains desc "mining" || strContains desc "miner" then 90
    else if ["copper", "lithium", "gold", "silver"].any
        (fun m => strContains desc m) then 85
    else if strContains desc "resources" || strContains sec "materials" then 70
    else 15
  else 0

/-- Exposure percentage to sub-score conversion (0-3 points). -/
def revenueBucket (pct : ℚ) : ℚ :=
  if 90 ≤ pct then 3
  else if 70 ≤ pct then 5 / 2
  else if 50 ≤ pct then 2
  else if 30 ≤ pct then 3 / 2
  else if 10 ≤ pct then 1
  else 1 / 2

/-- `AlignmentScorer._estimate_revenue_exposure`: (sub-score, exposure %). -/
def estimate_revenue_exposure (d : Details) (tt : String) : ℚ × ℚ :=
  match revenueTheme tt with
  | none => (1, 20)
  | some theme => (revenueBucket (exposurePct theme d), exposurePct theme d)

/-- Thesis theme detection of `_score_sector_alignment` (a second,
coarser keyword table, checked in source order). -/
def sectorTheme (tt : String) : Option String :=
  if ["ai", "data center", "gpu", "semiconductor"].any
      (fun k => strContains tt k) then some "ai_infrastructure"
  else if strContains tt "semiconductor" || strContains tt "chip" then
    some "semiconductor"
  else if ["power", "utility", "energy", "electric"].any
      (fun k => strContains tt k) then some "power_energy"
  else if strContains tt "defense" || strContains tt "military" then some "defense"
  else if strContains tt "real estate" || strContains tt "housing"
      || strContains tt "reit" then some "real_estate"
  else if ["bank", "financial", "credit", "private equity"].any
      (fun k => strContains tt k) then some "financial"
  else if strContains tt "china" || strContains tt "chinese" then some "china_tech"
  else if ["commodity", "mining", "copper", "lithium", "gold"].any
      (fun k => strContains tt k) then some "commodities"
  else none

/-- The perfect/good/related sector-name tiers per theme. -/
def sectorTiers (theme : String) : List String × List String × List String :=
  if theme == "ai_infrastructure" then
    (["semiconductors", "semiconductor", "technology hardware", "data centers", "reits"],
     ["software", "technology", "electric utilities", "utilities"],
     ["communications", "telecommunications"])
  else if theme == "semiconductor" then
    (["semiconductors", "semiconductor", "semiconductor equipment"],
     ["technology hardware", "electronics"],
     ["materials", "industrial"])
  else if theme == "power_energy" then
    (["electric utilities", "utilities", "renewable energy", "independent power"],
     ["oil & gas", "energy", "power generation"],
     ["industrial", "infrastructure"])
  else if theme == "defense" then
    (["aerospace & defense", "defense", "military"],
     ["industrial", "aerospace"],
     ["technology", "communications"])
  else if theme == "real_estate" then
    (["reits", "real estate", "residential", "homebuilders"],
     ["construction", "building materials"],
     ["financial", "mortgage"])
  else if theme == "financial" then
    (["banks", "financial services", "insurance", "asset management"],
     ["credit", "lending", "investment"],
     ["real estate", "fintech"])
  else if theme == "china_tech" then
    (["technology", "internet", "e-commerce", "software"],
     ["telecommunications", "media", "semiconductors"],
     ["consumer", "automotive"])
  else if theme == "commodities" then
    (["mining", "metals & mining", "gold", "materials"],
     ["basic materials", "resources", "oil & gas"],
     ["energy", "industrial"])
  else ([], [], [])

/-- `AlignmentScorer._score_sector_alignment` (0-2 points). -/
def score_sector_alignment (d : Details) (tt : String) : ℚ :=
  let sec := lowerStr d.sector
  let ind := lowerStr d.industry
  match sectorTheme tt with
  | none => 1
  | some theme =>
    let tiers := sectorTiers theme
    if tiers.1.any (fun x => strContains sec x || strContains ind x) then 2
    else if tiers.2.1.any (fun x => strContains sec x || strContains ind x) then 3 / 2
    else if tiers.2.2.any (fun x => strContains sec x || strContains ind x) then 1
    else 3 / 10

/-- Running maximum of a price list (Python `max(prices)`). -/
def listMaxQ (l : List ℚ) : ℚ := l.foldl max (l.headD 0)

/-- Running minimum of a price list (Python `min(prices)`). -/
def listMinQ (l : List ℚ) : ℚ := l.foldl min (l.headD 0)

/-- `AlignmentScorer._calculate_momentum_score` (0-2 points): position in
the 52-week range plus a moving-average trend tier, rounded to two
decimals.  `none` and histories shorter than 50 points score 0. -/
def calculate_momentum_score (hist : Option (List ℚ)) : ℚ :=
  match hist with
  | none => 0
  | some prices =>
    if prices.length < 50 then 0
    else
      let current := prices.getLastD 0
      let high := listMaxQ prices
      let low := listMinQ prices
      let range := high - low
      if range = 0 then 0
      else
        let position := (current - low) / range
        let trend : ℚ :=
          if 200 ≤ prices.length then
            let avg50 := (prices.drop (prices.length - 50)).sum / 50
            let avg200 := prices.sum / (prices.length : ℚ)
            if avg200 * (102 / 100) < avg50 then 1
            else if avg200 < avg50 then 3 / 4
            else if avg200 * (98 / 100) < avg50 then 1 / 2
            else 1 / 4
          else 1 / 2
        roundTo2 (position + trend)

/-- Income-thesis keywords gating the dividend factor. -/
def incomeKeywords : List String :=
  ["dividend", "income", "yield", "payout", "distribution", "cash flow"]

/-- `AlignmentScorer._score_dividend_quality` (0-2 points): applied only
to income-oriented theses; yield tier plus growth tier (needs at least 8
recorded payments), rounded to two decimals. -/
def score_dividend_quality (tt : String) (dd : Option DivData) : ℚ :=
  if !(incomeKeywords.any (fun k => strContains tt k)) then 0
  else
    match dd with
    | none => 0
    | some d =>
      if d.dividends.isEmpty then 0
      else
        let yscore : ℚ :=
          if 1 / 25 < d.dividendYield then 1
          else if 3 / 100 < d.dividendYield then 3 / 4
          else if 1 / 50 < d.dividendYield then 1 / 2
          else if 0 < d.dividendYield then 1 / 4
          else 0
        let gscore : ℚ :=
          if 8 ≤ d.dividends.length then
            let oldest := d.dividends.getLastD 0
            let newest := d.dividends.headD 0
            if 0 < oldest then
              let growth := (newest - oldest) / oldest
              if 1 / 10 < growth then 1
              else if 1 / 20 < growth then 3 / 4
              else if 0 < growth then 1 / 2
              else 0
            else 0
          else 0
        roundTo2 (yscore + gscore)

/-- Result of one scoring call (the numeric outputs of the returned
`ThesisAlignment`). -/
structure AlignmentResult where
  alignment_score : ℚ
  revenue_exposure_pct : Option ℚ
  deriving DecidableEq

/-- `AlignmentScorer.score_alignment`: raw factor sum out of 14 rescaled
to 0-10 and rounded to two decimals. -/
def score_alignment (sec : AgentSecurity) (d : Details) (t : Thesis)
    (yahoo : Option YahooData) : AlignmentResult :=
  let tt := thesisText t
  let m : ℚ := if mentioned_in_thesis sec t then 2 else 0
  let bs := (score_business_description d tt).1
  let rev := estimate_revenue_exposure d tt
  let ss := score_sector_alignment d tt
  let ms : ℚ := match yahoo with
    | none => 0
    | some y => calculate_momentum_score y.hist
  let ds : ℚ := match yahoo with
    | none => 0
    | some y => score_dividend_quality tt y.divData
  let raw := m + bs + rev.1 + ss + ms + ds
  { alignment_score := roundTo2 (raw / 14 * 10)
    revenue_exposure_pct := if 0 < rev.1 then some rev.2 else none }

/-- The scorer as run without an Alpha Vantage client: company details
come from the security object itself. -/
def score_alignment_from_security (sec : AgentSecurity) (t : Thesis)
    (yahoo : Option YahooData) : AlignmentResult :=
  score_alignment sec (detailsOfSecurity sec) t yahoo

theorem init_le_foldl_max (l : List ℚ) : ∀ b : ℚ, b ≤ l.foldl max b := by
  induction l with
  | nil => intro b; simp
  | cons a t ih =>
    intro b
    calc b ≤ max b a := le_max_left _ _
      _ ≤ t.foldl max (max b a) := ih _

theorem le_foldl_max (l : List ℚ) : ∀ b x : ℚ, x ∈ l → x ≤ l.foldl max b := by
  induction l with
  | nil => intro b x hx; exact absurd hx (List.not_mem_nil x)
  | cons a t ih =>
    intro b x hx
    rcases List.mem_cons.1 hx with rfl | hx2
    · calc x ≤ max b x := le_max_right _ _
        _ ≤ t.foldl max (max b x) := init_le_foldl_max t _
    · exact ih _ x hx2

theorem foldl_min_le_init (l : List ℚ) : ∀ b : ℚ, l.foldl min b ≤ b := by
  induction l with
  | nil => intro b; simp
  | cons a t ih =>
    intro b
    calc t.foldl min (min b a) ≤ min b a := ih _
      _ ≤ b := min_le_left _ _

theorem foldl_min_le (l : List ℚ) : ∀ b x : ℚ, x ∈ l → l.foldl min b ≤ x := by
  induction l with
  | nil => intro b x hx; exact absurd hx (List.not_mem_nil x)
  | cons a t ih =>
    intro b x hx
    rcases List.mem_cons.1 hx with rfl | hx2
    · calc t.foldl min (min b x) ≤ min b x := foldl_min_le_init t _
        _ ≤ x := min_le_right _ _
    · exact ih _ x hx2

theorem le_listMaxQ {l : List ℚ} {x : ℚ} (hx : x ∈ l) : x ≤ listMaxQ l :=
  le_foldl_max l _ x hx

theorem listMinQ_le {l : List ℚ} {x : ℚ} (hx : x ∈ l) : listMinQ l ≤ x :=
  foldl_min_le l _ x hx

theorem getLastD_mem_of_ne_nil {l : List ℚ} (h : l ≠ []) (dflt : ℚ) :
    l.getLastD dflt ∈ l := by
  induction l with
  | nil => exact absurd rfl h
  | cons a t ih =>
    cases ht : t with
    | nil => simp [List.getLastD]
    | cons b t2 =>
      have hne : t ≠ [] := by rw [ht]; simp
      have := ih hne
      rw [ht] at this
      rw [show (a :: b :: t2).getLastD dflt = (b :: t2).getLastD dflt from rfl]
      exact List.mem_cons_of_mem a this

theorem score_business_description_bounds (d : Details) (tt : String) :
    1 / 2 ≤ (score_business_description d tt).1
      ∧ (score_business_description d tt).1 ≤ 3 := by
  unfold score_business_description
  by_cases hd : (d.description == "") = true
  · rw [if_pos hd]
    norm_num
  · rw [if_neg hd]
    dsimp only
    by_cases hk : (businessKeywords tt).isEmpty = true
    · rw [if_pos hk]
      split_ifs <;> norm_num
    · rw [if_neg hk]
      split_ifs <;> norm_num

theorem revenueBucket_bounds (pct : ℚ) :
    1 / 2 ≤ revenueBucket pct ∧ revenueBucket pct ≤ 3 := by
  unfold revenueBucket
  split_ifs <;> norm_num

theorem estimate_revenue_exposure_bounds (d : Details) (tt : String) :
    1 / 2 ≤ (estimate_revenue_exposure d tt).1
      ∧ (estimate_revenue_exposure d tt).1 ≤ 3 := by
  unfold estimate_revenue_exposure
  cases revenueTheme tt with
  | none => norm_num
  | some theme =>
    dsimp only
    exact revenueBucket_bounds _

theorem score_sector_alignment_bounds (d : Details) (tt : String) :
    3 / 10 ≤ score_sector_alignment d tt ∧ score_sector_alignment d tt ≤ 2 := by
  unfold score_sector_alignment
  cases sectorTheme tt with
  | none => norm_num
  | some theme =>
    dsimp only
    split_ifs <;> norm_num

theorem calculate_momentum_score_bounds (h : Option (List ℚ)) :
    0 ≤ calculate_momentum_score h ∧ calculate_momentum_score h ≤ 2 := by
  unfold calculate_momentum_score
  cases h with
  | none => norm_num
  | some prices =>
    dsimp only
    by_cases hlen : prices.length < 50
    · rw [if_pos hlen]
      norm_num
    · rw [if_neg hlen]
      push_neg at hlen
      have hne : prices ≠ [] := by
        intro hp
        rw [hp] at hlen
        simp at hlen
      have hcur : prices.getLastD 0 ∈ prices := getLastD_mem_of_ne_nil hne 0
      have hhigh : prices.getLastD 0 ≤ listMaxQ prices := le_listMaxQ hcur
      have hlow : listMinQ prices ≤ prices.getLastD 0 := listMinQ_le hcur
      by_cases hr : listMaxQ prices - listMinQ prices = 0
      · rw [if_pos hr]
        norm_num
      · rw [if_neg hr]
        have hrpos : 0 < listMaxQ prices - listMinQ prices := by
          rcases lt_or_eq_of_le (by linarith : (0 : ℚ) ≤ listMaxQ prices - listMinQ prices)
            with hlt | heq
          · exact hlt
          · exact absurd heq.symm hr
        have hpos0 : 0 ≤ (prices.getLastD 0 - listMinQ prices)
            / (listMaxQ prices - listMinQ prices) :=
          div_nonneg (by linarith) (le_of_lt hrpos)
        have hpos1 : (prices.getLastD 0 - listMinQ prices)
            / (listMaxQ prices - listMinQ prices) ≤ 1 :=
          (div_le_one hrpos).2 (by linarith)
        have htrend : (1 : ℚ) / 4
            ≤ (if 200 ≤ prices.length then
                if (prices.sum / (prices.length : ℚ)) * (102 / 100)
                    < (prices.drop (prices.length - 50)).sum / 50 then (1 : ℚ)
                else if prices.sum / (prices.length : ℚ)
                    < (prices.drop (prices.length - 50)).sum / 50 then 3 / 4
                else if (prices.sum / (prices.length : ℚ)) * (98 / 100)
                    < (prices.drop (prices.length - 50)).sum / 50 then 1 / 2
                else 1 / 4
              else 1 / 2)
            ∧ (if 200 ≤ prices.length then
                if (prices.sum / (prices.length : ℚ)) * (102 / 100)
                    < (prices.drop (prices.length - 50)).sum / 50 then (1 : ℚ)
                else if prices.sum / (prices.length : ℚ)
                    < (prices.drop (prices.length - 50)).sum / 50 then 3 / 4
                else if (prices.sum / (prices.length : ℚ)) * (98 / 100)
                    < (prices.drop (prices.length - 50)).sum / 50 then 1 / 2
                else 1 / 4
              else 1 / 2) ≤ 1 := by
          split_ifs <;> norm_num
        constructor
        · exact roundTo2_nonneg (by linarith [htrend.1])
        · have hsum2 : (prices.getLastD 0 - listMinQ prices)
              / (listMaxQ prices - listMinQ prices)
              + (if 200 ≤ prices.length then
                if (prices.sum / (prices.length : ℚ)) * (102 / 100)
                    < (prices.drop (prices.length - 50)).sum / 50 then (1 : ℚ)
                else if prices.sum / (prices.length : ℚ)
                    < (prices.drop (prices.length - 50)).sum / 50 then 3 / 4
                else if (prices.sum / (prices.length : ℚ)) * (98 / 100)
                    < (prices.drop (prices.length - 50)).sum / 50 then 1 / 2
                else 1 / 4
              else 1 / 2) ≤ 2 := by
            linarith [htrend.2]
          have h2 := roundTo2_le_of_le_int 2 (by exact_mod_cast hsum2)
          exact le_trans h2 (by norm_num)

theorem score_dividend_quality_bounds (tt : String) (dd : Option DivData) :
    0 ≤ score_dividend_quality tt dd ∧ score_dividend_quality tt dd ≤ 2 := by
  unfold score_dividend_quality
  by_cases hk : (!(incomeKeywords.any (fun k => strContains tt k))) = true
  · rw [if_pos hk]
    norm_num
  · rw [if_neg hk]
    cases dd with
    | none => norm_num
    | some d =>
      dsimp only
      by_cases hemp : d.dividends.isEmpty = true
      · rw [if_pos hemp]
        norm_num
      · rw [if_neg hemp]
        have hy : (0 : ℚ) ≤ (if 1 / 25 < d.dividendYield then (1 : ℚ)
              else if 3 / 100 < d.dividendYield then 3 / 4
              else if 1 / 50 < d.dividendYield then 1 / 2
              else if 0 < d.dividendYield then 1 / 4 else 0)
            ∧ (if 1 / 25 < d.dividendYield then (1 : ℚ)
              else if 3 / 100 < d.dividendYield then 3 / 4
              else if 1 / 50 < d.dividendYield then 1 / 2
              else if 0 < d.dividendYield then 1 / 4 else 0) ≤ 1 := by
          split_ifs <;> norm_num
        have hg : (0 : ℚ) ≤ (if 8 ≤ d.dividends.length then
              if 0 < d.dividends.getLastD 0 then
                if 1 / 10 < (d.dividends.headD 0 - d.dividends.getLastD 0)
                    / d.dividends.getLastD 0 then (1 : ℚ)
                else if 1 / 20 < (d.dividends.headD 0 - d.dividends.getLastD 0)
                    / d.dividends.getLastD 0 then 3 / 4
                else if 0 < (d.dividends.headD 0 - d.dividends.getLastD 0)
                    / d.dividends.getLastD 0 then 1 / 2
                else 0
              else 0
            else 0)
            ∧ (if 8 ≤ d.dividends.length then
              if 0 < d.dividends.getLastD 0 then
                if 1 / 10 < (d.dividends.headD 0 - d.dividends.getLastD 0)
                    / d.dividends.getLastD 0 then (1 : ℚ)
                else if 1 / 20 < (d.dividends.headD 0 - d.dividends.getLastD 0)
                    / d.dividends.getLastD 0 then 3 / 4
                else if 0 < (d.dividends.headD 0 - d.dividends.getLastD 0)
                    / d.dividends.getLastD 0 then 1 / 2
                else 0
              else 0
            else 0) ≤ 1 := by
          split_ifs <;> norm_num
        set ys := (if 1 / 25 < d.dividendYield then (1 : ℚ)
          else if 3 / 100 < d.dividendYield then 3 / 4
          else if 1 / 50 < d.dividendYield then 1 / 2
          else if 0 < d.dividendYield then 1 / 4 else 0) with hysdef
        set gs := (if 8 ≤ d.dividends.length then
            if 0 < d.dividends.getLastD 0 then
              if 1 / 10 < (d.dividends.headD 0 - d.dividends.getLastD 0)
                  / d.dividends.getLastD 0 then (1 : ℚ)
              else if 1 / 20 < (d.dividends.headD 0 - d.dividends.getLastD 0)
                  / d.dividends.getLastD 0 then 3 / 4
              else if 0 < (d.dividends.headD 0 - d.dividends.getLastD 0)
                  / d.dividends.getLastD 0 then 1 / 2
              else 0
            else 0
          else 0) with hgsdef
        constructor
        · exact roundTo2_nonneg (by linarith [hy.1, hg.1])
        · exact le_trans
            (roundTo2_le_of_le_int 2 (by push_cast; linarith [hy.2, hg.2]))
            (by norm_num)

/-- C6: for every security, company-details dictionary, thesis, and
optional Yahoo Finance data, the alignment score lies in the fixed
target range [0, 10]: the six factor sub-scores are bounded by
2 + 3 + 3 + 2 + 2 + 2 = 14 raw points and the raw sum is rescaled by
`raw / 14 * 10` (then rounded to two decimals). -/
theorem C6_score_bounds (sec : AgentSecurity) (d : Details) (t : Thesis)
    (yahoo : Option YahooData) :
    0 ≤ (score_alignment sec d t yahoo).alignment_score ∧
      (score_alignment sec d t yahoo).alignment_score ≤ 10 := by
  have hb := score_business_description_bounds d (thesisText t)
  have hr := estimate_revenue_exposure_bounds d (thesisText t)
  have hs := score_sector_alignment_bounds d (thesisText t)
  have hmention : (0 : ℚ) ≤ (if mentioned_in_thesis sec t then (2 : ℚ) else 0)
      ∧ (if mentioned_in_thesis sec t then (2 : ℚ) else 0) ≤ 2 := by
    split_ifs <;> norm_num
  cases yahoo with
  | none =>
    unfold score_alignment
    dsimp only
    constructor
    · exact roundTo2_nonneg (by
        linarith [hb.1, hr.1, hs.1, hmention.1])
    · exact le_trans
        (roundTo2_le_of_le_int 10 (by
          push_cast
          linarith [hb.2, hr.2, hs.2, hmention.2]))
        (by norm_num)
  | some y =>
    have hm := calculate_momentum_score_bounds y.hist
    have hdq := score_dividend_quality_bounds (thesisText t) y.divData
    unfold score_alignment
    dsimp only
    constructor
    · exact roundTo2_nonneg (by
        linarith [hb.1, hr.1, hs.1, hmention.1, hm.1, hdq.1])
    · exact le_trans
        (roundTo2_le_of_le_int 10 (by
          push_cast
          linarith [hb.2, hr.2, hs.2, hmention.2, hm.2, hdq.2]))
        (by norm_num)

/-- Security of the C7 counterexample: ticker `AI` (a real listed
symbol), a regulated utility whose description mentions infrastructure
and colocation. -/
def c7Sec : AgentSecurity :=
  { ticker := "AI", name := "Acme Utility Co",
    description := "Regulated utility providing infrastructure and colocation services",
    sector := "Utility", industry := "" }

/-- C7 counterexample thesis without the ticker in its text. -/
def c7T : Thesis :=
  { id := "t1", title := "Digital Infrastructure Growth",
    summary := "Bet on infrastructure buildout" }

/-- The same thesis with the ticker appended to the summary. -/
def c7T2 : Thesis :=
  { id := "t1", title := "Digital Infrastructure Growth",
    summary := "Bet on infrastructure buildout AI" }

section RatKernel

attribute [local semireducible] Rat.add Rat.mul Rat.inv Rat.sub

/-- C7 counterexample: `c7T2` is identical to `c7T` except that its
serialized text contains the ticker `AI` verbatim, yet it scores
strictly lower (3.43 < 3.57).  The inserted ticker text also feeds the
keyword/theme detection: it dilutes the business-keyword density
(3.0 → 2.0), switches the revenue theme to `ai_infrastructure` where a
utility gets an 8 % exposure estimate (1.0 → 0.5), and switches the
sector theme so the unmatched sector scores 0.3 instead of the
no-theme default 1.0 — a combined loss of 2.2 raw points against the
+2.0 direct-mention bonus. -/
theorem C7_counterexample :
    mentioned_in_thesis c7Sec c7T = false ∧
      mentioned_in_thesis c7Sec c7T2 = true ∧
      c7T2.id = c7T.id ∧ c7T2.title = c7T.title ∧
      c7T2.summary = c7T.summary ++ " AI" ∧
      (score_alignment_from_security c7Sec c7T2 none).alignment_score
        < (score_alignment_from_security c7Sec c7T none).alignment_score := by
  refine ⟨by decide, by decide, rfl, rfl, rfl, by decide⟩

end RatKernel

/-- C7 amended: a thesis containing the ticker scores at least as high
as an otherwise-identical thesis without it, provided the two theses
agree on the title and summary fields that feed keyword/theme detection
(for example when the ticker appears in the thesis id, which enters the
serialized JSON but not the analysed text).  When the ticker text itself
alters keyword or theme detection the guarantee can fail, as
the counterexample shows. -/
theorem C7_amended_mention_monotone (sec : AgentSecurity) (d : Details)
    (t t2 : Thesis) (yahoo : Option YahooData)
    (htitle : t.title = t2.title) (hsummary : t.summary = t2.summary)
    (hment : mentioned_in_thesis sec t = false)
    (hment2 : mentioned_in_thesis sec t2 = true) :
    (score_alignment sec d t yahoo).alignment_score
      ≤ (score_alignment sec d t2 yahoo).alignment_score := by
  have htt : thesisText t = thesisText t2 := by
    unfold thesisText
    rw [htitle, hsummary]
  unfold score_alignment
  dsimp only
  rw [hment, hment2, htt]
  simp only [Bool.false_eq_true, if_false, if_true]
  apply roundTo2_mono
  have h0 : (0 : ℚ) ≤ 2 := by norm_num
  cases yahoo with
  | none =>
    dsimp only
    linarith
  | some y =>
    dsimp only
    linarith

/-- Security/theses of the C7 amended witness: the ticker appears only
in the id of the second thesis. -/
def c7wSec : AgentSecurity :=
  { ticker := "NVDA", name := "NVIDIA", description := "", sector := "",
    industry := "" }

/-- Witness thesis without the ticker anywhere. -/
def c7wT : Thesis := { id := "t1", title := "Growth", summary := "Broad tech" }

/-- Witness thesis with the ticker in the id only. -/
def c7wT2 : Thesis := { id := "t1 NVDA", title := "Growth", summary := "Broad tech" }

/-- C7 amended, witness. -/
theorem C7_amended_mention_monotone_witness :
    (score_alignment c7wSec (detailsOfSecurity c7wSec) c7wT none).alignment_score
      ≤ (score_alignment c7wSec (detailsOfSecurity c7wSec) c7wT2 none).alignment_score :=
  C7_amended_mention_monotone c7wSec (detailsOfSecurity c7wSec) c7wT c7wT2 none
    rfl rfl (by decide) (by decide)

end InvestmentAnalyst
